import Mathlib

/-!
Verification of the record-linkage and duplicate-detection engine of the
lacklineage repository (`scan_documents.py`, `generate_research.py`).

The Python sources are shallowly embedded: strings are Lean `String`s
(ASCII-faithful models of `str.lower`, `str.strip`, `str.split`, …),
Python floats are modelled by `ℚ`, Python `None`-able values by `Option`,
the `document_match` SQL table by a list of rows, and
`difflib.SequenceMatcher.ratio` (the string-similarity primitive used by
`name_similarity`) is implemented following the CPython algorithm
(`b2j` construction with autojunk, the longest-match dynamic program with
its tie-breaking, recursive block decomposition, `2*M/T` scoring).
-/

namespace Lineage

/-! ## Python string primitives (ASCII model) -/

/-- Python `\s` / `str.strip()` whitespace (ASCII part). -/
def pyIsSpaceB (c : Char) : Bool :=
  c == ' ' || c == '\t' || c == '\n' || c == '\r' || c == Char.ofNat 11 || c == Char.ofNat 12

/-- Apostrophe character (ASCII 39). -/
def apos : Char := Char.ofNat 39

/-- Python `str.lower()` (ASCII model). -/
def pyLower (s : String) : String := ⟨s.data.map Char.toLower⟩

/-- Python `str.upper()` (ASCII model). -/
def pyUpper (s : String) : String := ⟨s.data.map Char.toUpper⟩

/-- Strip characters satisfying `p` from both ends of a char list. -/
def stripList (p : Char → Bool) (l : List Char) : List Char :=
  ((l.dropWhile p).reverse.dropWhile p).reverse

/-- Python `str.strip()` with no arguments (whitespace). -/
def pyStripWs (s : String) : String := ⟨stripList pyIsSpaceB s.data⟩

/-- Python `str.strip(chars)`. -/
def pyStripSet (s : String) (cs : List Char) : String :=
  ⟨stripList (fun c => cs.contains c) s.data⟩

/-- Python `str.split()` with no arguments: split on whitespace runs,
dropping empty pieces. -/
def pySplitWs (s : String) : List String :=
  (s.split (fun c => pyIsSpaceB c)).filter (fun w => w ≠ "")

/-- Python word character for `\w` / `\b` (ASCII model): `[A-Za-z0-9_]`. -/
def isWordChar (c : Char) : Bool := c.isAlphanum || c == '_'

/-- Case-insensitive character equality (ASCII model), for `re.IGNORECASE`. -/
def eqIC (a b : Char) : Bool := a.toLower == b.toLower

/-- Case-insensitive literal-prefix test: does `l` start with `lit`? -/
def prefixIC : List Char → List Char → Bool
  | [], _ => true
  | _ :: _, [] => false
  | x :: xs, y :: ys => eqIC x y && prefixIC xs ys

/-! ## `difflib.SequenceMatcher` (as called: `SequenceMatcher(None, a, b)`)

CPython builds `b2j` from `b`; with `isjunk = None` the junk set `bjunk`
is empty, and autojunk removes "popular" elements (count `> len(b)//100 + 1`,
only when `len(b) >= 200`) from `b2j`.  `find_longest_match` runs the
dynamic program over `b2j`, keeping the first `(i, j)` (scanning `i`
ascending, then `j` ascending) that achieves each new record size, then
extends the block by the four while-loops (which use `bjunk`, here empty).
`ratio` is `2 * M / (len(a) + len(b))` where `M` sums the block sizes of
the recursive longest-match decomposition (`1.0` when both are empty). -/

/-- Occurrence count of a character. -/
def charCount (l : List Char) (c : Char) : Nat := l.countP (fun x => x == c)

/-- The autojunk "popular" test on `b` (elements removed from `b2j`). -/
def smPopular (b : List Char) (c : Char) : Bool :=
  decide (b.length ≥ 200) && decide (charCount b c > b.length / 100 + 1)

/-- Association-list lookup with default 0, for the `j2len` dict. -/
def alookup (l : List (Nat × Nat)) (j : Nat) : Nat :=
  match l.find? (fun p => p.1 == j) with
  | some p => p.2
  | none => 0

/-- One row (`i`) of the `find_longest_match` dynamic program:
fold over the ascending in-range occurrence indices `js` of `a[i]` in `b`,
building the fresh `newj2len` dict and updating the best block. -/
def flmRow (j2len : List (Nat × Nat)) (i : Nat) (js : List Nat)
    (best : Nat × Nat × Nat) : List (Nat × Nat) × (Nat × Nat × Nat) :=
  js.foldl
    (fun st j =>
      let k := (if j = 0 then 0 else alookup j2len (j - 1)) + 1
      let best := if k > st.2.2.2 then (i + 1 - k, j + 1 - k, k) else st.2
      ((j, k) :: st.1, best))
    ([], best)

/-- The dynamic-programming phase of `find_longest_match`: returns
`(besti, bestj, bestsize)` before the extension loops. -/
def flmDP (a b : List Char) (bpop : Char → Bool) (alo ahi blo bhi : Nat) :
    Nat × Nat × Nat :=
  (List.range' alo (ahi - alo)).foldl
    (fun st i =>
      let c := a.getD i ' '
      let js := if bpop c then []
        else (List.range' blo (bhi - blo)).filter (fun j => b.getD j ' ' == c)
      flmRow st.1 i js st.2)
    ([], (alo, blo, 0)) |>.2

/-- `while besti > alo and bestj > blo and p(b[bestj-1]) and a[besti-1] == b[bestj-1]`. -/
def extLeft (a b : List Char) (p : Char → Bool) (alo blo : Nat) :
    Nat → Nat × Nat × Nat → Nat × Nat × Nat
  | 0, st => st
  | fuel + 1, (bi, bj, bs) =>
    if bi > alo && bj > blo && p (b.getD (bj - 1) ' ') &&
        (a.getD (bi - 1) ' ' == b.getD (bj - 1) ' ') then
      extLeft a b p alo blo fuel (bi - 1, bj - 1, bs + 1)
    else (bi, bj, bs)

/-- `while besti+bestsize < ahi and bestj+bestsize < bhi and p(b[bestj+bestsize])
and a[besti+bestsize] == b[bestj+bestsize]`. -/
def extRight (a b : List Char) (p : Char → Bool) (ahi bhi : Nat) :
    Nat → Nat × Nat × Nat → Nat × Nat × Nat
  | 0, st => st
  | fuel + 1, (bi, bj, bs) =>
    if bi + bs < ahi && bj + bs < bhi && p (b.getD (bj + bs) ' ') &&
        (a.getD (bi + bs) ' ' == b.getD (bj + bs) ' ') then
      extRight a b p ahi bhi fuel (bi, bj, bs + 1)
    else (bi, bj, bs)

/-- `find_longest_match` with `bjunk = ∅` (the `isjunk = None` case):
DP phase, then the non-junk extension loops; the junk extension loops are
no-ops because the junk set is empty. -/
def findLongestMatch (a b : List Char) (bpop : Char → Bool)
    (alo ahi blo bhi : Nat) : Nat × Nat × Nat :=
  let st := flmDP a b bpop alo ahi blo bhi
  let st := extLeft a b (fun _ => true) alo blo st.1 st
  let st := extRight a b (fun _ => true) ahi bhi (bhi - blo) st
  let st := extLeft a b (fun _ => false) alo blo st.1 st
  extRight a b (fun _ => false) ahi bhi (bhi - blo) st

/-- Total matched size of the recursive longest-match block decomposition
(`get_matching_blocks`); `fuel` bounds the recursion depth and is chosen
large enough at the top level that it never runs out (each recursive call
strictly shrinks `(ahi - alo) + (bhi - blo)`). -/
def matchTotal (a b : List Char) (bpop : Char → Bool) :
    Nat → Nat → Nat → Nat → Nat → Nat
  | 0, _, _, _, _ => 0
  | fuel + 1, alo, ahi, blo, bhi =>
    let r := findLongestMatch a b bpop alo ahi blo bhi
    if r.2.2 = 0 then 0
    else
      matchTotal a b bpop fuel alo r.1 blo r.2.1 + r.2.2 +
        matchTotal a b bpop fuel (r.1 + r.2.2) ahi (r.2.1 + r.2.2) bhi

/-- `SequenceMatcher(None, a, b).ratio()` as a rational. -/
def matcherScore (a b : List Char) : ℚ :=
  if a.length + b.length = 0 then 1
  else
    (2 * (matchTotal a b (smPopular b) (a.length + b.length + 1)
      0 a.length 0 b.length) : ℚ) / (a.length + b.length)

/-! ## `name_similarity` (scan_documents.py, lines 581–587) -/

/-- `name_similarity(name1, name2)`: lowercase and strip both, return `1.0`
when equal, else the `SequenceMatcher` ratio. -/
def nameSimilarity (name1 name2 : String) : ℚ :=
  let n1 := pyStripWs (pyLower name1)
  let n2 := pyStripWs (pyLower name2)
  if n1 = n2 then 1 else matcherScore n1.data n2.data

/-! ## Year extraction

`extract_year_from_str` (scan_documents.py, lines 590–595) and `yr`
(generate_research.py, lines 18–21) are the same function: `None`/empty
input gives `None`, otherwise `re.search(r"(\d{4})")` — the leftmost run
of four consecutive digits — parsed as an int. -/

/-- Numeric value of a list of decimal digit characters. -/
def digitsVal (cs : List Char) : Int :=
  cs.foldl (fun acc c => acc * 10 + (c.toNat - 48)) 0

/-- Leftmost four consecutive digits of a char list, as an integer. -/
def firstYear : List Char → Option Int
  | [] => none
  | c :: rest =>
    if c.isDigit && (rest.take 3).length == 3 && (rest.take 3).all Char.isDigit then
      some (digitsVal (c :: rest.take 3))
    else firstYear rest

/-- `extract_year_from_str` / `yr`: first 4-digit run of the string. -/
def extractYearStr : Option String → Option Int
  | none => none
  | some s => if s = "" then none else firstYear s.data

/-- Python truthiness of an optional int (`None` and `0` are falsy). -/
def pyTruthyYear : Option Int → Bool
  | some y => y != 0
  | none => false

/-! ## `match_names_to_people` (scan_documents.py, lines 598–660) -/

/-- One row of the `person` table as loaded by `load_people`
(scan_documents.py, lines 704–713): the fields used by the matcher. -/
structure Person where
  id : Nat
  given_name : Option String
  surname : Option String
  birth_date : Option String
  death_date : Option String
deriving DecidableEq, Repr

/-- Python `x or ''` on an optional string. -/
def orBlank : Option String → String
  | some s => s
  | none => ""

/-- `f"{given or ''} {surname or ''}".strip()`. -/
def fullNameOf (p : Person) : String :=
  pyStripWs (orBlank p.given_name ++ " " ++ orBlank p.surname)

/-- Running best (score, snippet) while scanning the extracted names. -/
structure BestSt where
  score : ℚ
  snippet : String
deriving DecidableEq, Repr

/-- The body of the `for extracted_name in names_found` loop: full-name
similarity, the 0.4/0.6 given+surname component score (both components
must exceed 0.7), and the weak surname-only signal (`0.45 * sim`,
attempted only while the current best is below 0.5). -/
def perNameStep (given surname full : String) (st : BestSt) (e : String) : BestSt :=
  let s1 := nameSimilarity full e
  let st := if s1 > st.score then ⟨s1, e⟩ else st
  let parts := pySplitWs e
  let st :=
    if given ≠ "" ∧ surname ≠ "" ∧ parts.length ≥ 2 then
      let gs := nameSimilarity given (parts.headD "")
      let ss := nameSimilarity surname (parts.getLastD "")
      let comb := gs * (4 / 10) + ss * (6 / 10)
      if comb > st.score ∧ gs > 7 / 10 ∧ ss > 7 / 10 then ⟨comb, e⟩ else st
    else st
  if surname ≠ "" ∧ surname.length > 2 ∧ st.score < 1 / 2 then
    parts.foldl
      (fun st w =>
        let ss := nameSimilarity surname w
        if ss > 9 / 10 then ⟨max st.score (ss * (45 / 100)), e⟩ else st)
      st
  else st

/-- Best (score, snippet) of one person against the candidate list. -/
def bestFor (names : List String) (given surname full : String) : BestSt :=
  names.foldl (perNameStep given surname full) ⟨0, ""⟩

/-- The year-corroboration boost: only when the document's year set is
non-empty; +0.12 when it contains the (truthy) birth year, +0.08 for the
death year. -/
def yearBoost (p : Person) (years : Finset Int) : ℚ :=
  if years = ∅ then 0
  else
    let byr := extractYearStr p.birth_date
    let dyr := extractYearStr p.death_date
    (if pyTruthyYear byr ∧ byr.getD 0 ∈ years then 12 / 100 else 0) +
      (if pyTruthyYear dyr ∧ dyr.getD 0 ∈ years then 8 / 100 else 0)

/-- `final_score = min(best_score + year_boost, 1.0)` for one person. -/
def finalScoreOf (names : List String) (p : Person) (years : Finset Int) : ℚ :=
  min ((bestFor names (orBlank p.given_name) (orBlank p.surname) (fullNameOf p)).score
    + yearBoost p years) 1

/-- An element of the list returned by `match_names_to_people`:
`(person_id, confidence, snippet, match_type)`. -/
structure MatchRow where
  pid : Nat
  score : ℚ
  snippet : String
  mtype : String
deriving DecidableEq, Repr

/-- Body of the `for person in people` loop: skip people whose full name
is shorter than 3 characters, compute the final score, and append a match
when it reaches the threshold and the person id is unseen. -/
def matchStep (names : List String) (years : Finset Int) (threshold : ℚ)
    (st : List MatchRow × List Nat) (p : Person) : List MatchRow × List Nat :=
  let full := fullNameOf p
  if full.length < 3 then st
  else
    let best := bestFor names (orBlank p.given_name) (orBlank p.surname) full
    let final := min (best.score + yearBoost p years) 1
    if final ≥ threshold ∧ p.id ∉ st.2 then
      (st.1 ++ [⟨p.id, final, best.snippet, "auto"⟩], p.id :: st.2)
    else st

/-- Stable insertion into a score-descending list (an element moves in
front of another only when its score is strictly greater, so equal scores
keep their original relative order — the behaviour of Python's stable
`list.sort(key=lambda x: -x[1])`). -/
def insertDesc (m : MatchRow) : List MatchRow → List MatchRow
  | [] => [m]
  | x :: xs => if m.score ≥ x.score then m :: x :: xs else x :: insertDesc m xs

/-- Stable sort by score descending. -/
def sortDesc : List MatchRow → List MatchRow
  | [] => []
  | x :: xs => insertDesc x (sortDesc xs)

/-- `match_names_to_people(names_found, people, years_in_doc, threshold)`:
accumulate per-person matches, sort by confidence descending, truncate to
`MAX_OCR_MATCHES_PER_DOC = 5`. -/
def matchNamesToPeople (names : List String) (people : List Person)
    (years : Finset Int) (threshold : ℚ) : List MatchRow :=
  (sortDesc (people.foldl (matchStep names years threshold) ([], [])).1).take 5

/-- `NAME_MATCH_THRESHOLD = 0.78`. -/
def nameMatchThreshold : ℚ := 78 / 100

/-- `FILENAME_MATCH_THRESHOLD = 0.82`. -/
def filenameMatchThreshold : ℚ := 82 / 100

/-! ## Rounding

Python's `round(x, 3)` rounds half to even; in the rational model this is
half-even rounding of `x * 1000` to an integer, divided by 1000. -/

/-- Round a rational to the nearest integer, ties to even. -/
def rhe (q : ℚ) : ℤ :=
  let f := ⌊q⌋
  let r := q - f
  if r < 1 / 2 then f
  else if r > 1 / 2 then f + 1
  else if Even f then f else f + 1

/-- Python `round(x, 3)` in the rational model. -/
def round3 (q : ℚ) : ℚ := (rhe (q * 1000) : ℚ) / 1000

/-! ## The `document_match` table and the per-match writes of the passes

`document_match` has `UNIQUE(document_id, person_id)` (scan_documents.py,
lines 682–691).  We model the table as a list of rows and each pass's
per-match write as a function on it:

* `scan_filenames` (lines 832–844) writes each proposed match with a bare
  `INSERT OR REPLACE` — on a `(document_id, person_id)` conflict the old
  row is deleted and a fresh row (`match_type='filename'`, `verified=0`)
  is inserted, with no confidence comparison;
* `scan_ocr` (lines 944–967) first SELECTs the existing row for the pair;
  if present it UPDATEs confidence/snippet/match_type only when the new
  confidence is strictly greater (the `verified` column is not touched),
  otherwise it inserts a fresh unverified row;
* `scan_vision` (lines 461–489) does the same as `scan_ocr` but first
  boosts the scorer's confidence by `conf = min(conf + 0.05, 1.0)` and
  tags rows `'vision_auto'`;
* `review_matches` (lines 1256–1265) sets `verified = 1` on acceptance
  and DELETEs the row on explicit human rejection. -/

/-- One row of `document_match` (the `id` column is immaterial to the
claims; rows are keyed by `(document_id, person_id)`). -/
structure DMRow where
  doc : Nat
  person : Nat
  mtype : String
  conf : ℚ
  snippet : String
  verified : Bool
deriving DecidableEq, Repr

/-- The `document_match` table. -/
abbrev DMTable := List DMRow

/-- `SELECT ... FROM document_match WHERE document_id = ? AND person_id = ?`
(first row with the key, `none` if absent). -/
def dmFind : DMTable → Nat → Nat → Option DMRow
  | [], _, _ => none
  | r :: rest, d, p =>
    if r.doc == d && r.person == p then some r else dmFind rest d p

/-- The compare-and-upgrade write shared verbatim by the OCR and vision
passes (their code blocks are identical up to the method tag): SELECT the
existing row for the pair; if present, UPDATE confidence/snippet/
match_type only when the new confidence is strictly greater (leaving the
`verified` column untouched); otherwise INSERT a fresh unverified row. -/
def upsertIfHigher (t : DMTable) (d p : Nat) (conf : ℚ) (snip tag : String) : DMTable :=
  match dmFind t d p with
  | some r =>
    if conf > r.conf then
      t.map (fun r' =>
        if r'.doc == d && r'.person == p then
          { r' with conf := round3 conf, snippet := snip, mtype := tag }
        else r')
    else t
  | none => t ++ [⟨d, p, tag, round3 conf, snip, false⟩]

/-- The OCR pass's write for one proposed `(doc, person, conf, snippet)`. -/
def ocrApplyMatch (t : DMTable) (d p : Nat) (conf : ℚ) (snip : String) : DMTable :=
  upsertIfHigher t d p conf snip "ocr_auto"

/-- The vision pass's stored confidence for a scorer output `s`:
`round(min(s + 0.05, 1.0), 3)`. -/
def visionStoredConf (s : ℚ) : ℚ := round3 (min (s + 5 / 100) 1)

/-- The vision pass's write for one proposed match with scorer output `s`:
`conf = min(conf + 0.05, 1.0)`, then the same compare-and-upgrade logic as
the OCR pass, tagged `'vision_auto'`. -/
def visionApplyMatch (t : DMTable) (d p : Nat) (s : ℚ) (snip : String) : DMTable :=
  upsertIfHigher t d p (min (s + 5 / 100) 1) snip "vision_auto"

/-- The filename pass's write: `INSERT OR REPLACE` with no comparison —
any existing row for the pair (verified or not) is deleted and replaced
by a fresh unverified `'filename'` row. -/
def filenameApplyMatch (t : DMTable) (d p : Nat) (conf : ℚ) (snip : String) : DMTable :=
  (t.filter (fun r => !(r.doc == d && r.person == p))) ++
    [⟨d, p, "filename", round3 conf, snip, false⟩]

/-- Human acceptance during review: `UPDATE document_match SET verified = 1`. -/
def reviewAccept (t : DMTable) (d p : Nat) : DMTable :=
  t.map (fun r => if r.doc == d && r.person == p then { r with verified := true } else r)

/-- Explicit human rejection during review: `DELETE FROM document_match`. -/
def reviewReject (t : DMTable) (d p : Nat) : DMTable :=
  t.filter (fun r => !(r.doc == d && r.person == p))

/-! ## Soundex (generate_research.py, lines 55–68) -/

/-- The consonant-class table (`codes` dict); vowels and H/W/Y are
unmapped (`codes.get(c, '')`). -/
def soundexCode : Char → Option Char
  | 'B' => some '1' | 'F' => some '1' | 'P' => some '1' | 'V' => some '1'
  | 'C' => some '2' | 'G' => some '2' | 'J' => some '2' | 'K' => some '2'
  | 'Q' => some '2' | 'S' => some '2' | 'X' => some '2' | 'Z' => some '2'
  | 'D' => some '3' | 'T' => some '3'
  | 'L' => some '4'
  | 'M' => some '5' | 'N' => some '5'
  | 'R' => some '6'
  | _ => none

/-- The `for c in name[1:]` loop: emit a class digit when the letter is
mapped and its class differs from `prev`; `prev` is updated only by mapped
letters (`prev = code if code else prev`), so it persists across vowels
and other unmapped characters. -/
def soundexLoop : Option Char → List Char → List Char
  | _, [] => []
  | prev, c :: rest =>
    match soundexCode c with
    | some d =>
      if some d ≠ prev then d :: soundexLoop (some d) rest
      else soundexLoop (some d) rest
    | none => soundexLoop prev rest

/-- `soundex(name)`: uppercase; empty input returns `''`; otherwise the
first (uppercased) character followed by the emitted class digits, padded
with `'000'` and truncated to 4 characters. -/
def soundex (name : String) : String :=
  match (pyUpper name).data with
  | [] => ""
  | c :: rest => ⟨((c :: soundexLoop (soundexCode c) rest) ++ ['0', '0', '0']).take 4⟩

/-- Drop elements equal to the running previous value (initialised to
`prev₀`): an alternative formulation of the code's collapse behaviour,
stated over the subsequence of mapped classes. -/
def destutterFrom : Option Char → List Char → List Char
  | _, [] => []
  | prev, d :: rest =>
    if some d = prev then destutterFrom (some d) rest
    else d :: destutterFrom (some d) rest

/-- The amended specification of `soundex`: uppercase the input; an empty
input yields the empty string; otherwise keep the first uppercased letter,
take the subsequence of consonant classes of the remaining letters
(unmapped letters dropped), collapse each class equal to the previous
mapped class — with the first letter's class as the initial previous
value, and unmapped letters not resetting it — and pad/truncate to 4. -/
def soundexSpecA (name : String) : String :=
  match (pyUpper name).data with
  | [] => ""
  | c :: rest =>
    ⟨((c :: destutterFrom (soundexCode c) (rest.filterMap soundexCode)) ++
      ['0', '0', '0']).take 4⟩

/-- The collapse rule as the claim states it ("only consecutive letters
mapping to the same class collapse"): an unmapped letter (vowel/H/W/Y)
resets the previous class, so a repeated class across a vowel is emitted
again. -/
def consecLoop : Option Char → List Char → List Char
  | _, [] => []
  | prev, c :: rest =>
    match soundexCode c with
    | some d =>
      if some d ≠ prev then d :: consecLoop (some d) rest
      else consecLoop (some d) rest
    | none => consecLoop none rest

/-- `soundex` as described by the claim's collapse rule (uppercased input,
consecutive-only collapse). -/
def soundexConsec (name : String) : String :=
  match (pyUpper name).data with
  | [] => ""
  | c :: rest => ⟨((c :: consecLoop (soundexCode c) rest) ++ ['0', '0', '0']).take 4⟩

/-! ## Duplicate candidate detection (generate_research.py, lines 70–112) -/

/-- One row of the duplicate-detection person query (`WHERE surname IS NOT
NULL AND given_name IS NOT NULL`, so `given`/`surname` are strings); only
the fields the pair logic reads are modelled (the emitted person stubs and
reason string carry no further information used by any claim). -/
structure DPerson where
  id : Nat
  given : String
  surname : String
  birth_date : Option String
  birth_place : Option String
deriving DecidableEq, Repr

/-- The blocking key `soundex(surname) + '_' + soundex(given_name)`. -/
def blockKey (p : DPerson) : String := soundex p.surname ++ "_" ++ soundex p.given

/-- Append person `p` to the group for key `k` (insertion-ordered dict of
lists, as built by `defaultdict(list)` iteration). -/
def addToGroups (gs : List (String × List DPerson)) (k : String) (p : DPerson) :
    List (String × List DPerson) :=
  match gs with
  | [] => [(k, [p])]
  | (k', ms) :: rest =>
    if k' = k then (k', ms ++ [p]) :: rest else (k', ms) :: addToGroups rest k p

/-- `sx_groups`: fold the person list into blocks by `blockKey`. -/
def groupsOf (t : List DPerson) : List (String × List DPerson) :=
  t.foldl (fun gs p => addToGroups gs (blockKey p) p) []

/-- Exact-duplicate test: same surname and given name after lowercasing
(such pairs are skipped). -/
def sameNameB (p q : DPerson) : Bool :=
  pyLower p.surname == pyLower q.surname && pyLower p.given == pyLower q.given

/-- The birth-year closeness gate:
`(y1 and y2 and abs(y1-y2) <= 5) or (not y1 or not y2)`. -/
def dateClose (b1 b2 : Option String) : Bool :=
  let y1 := extractYearStr b1
  let y2 := extractYearStr b2
  (pyTruthyYear y1 && pyTruthyYear y2 &&
    decide ((y1.getD 0 - y2.getD 0).natAbs ≤ 5)) ||
  (!pyTruthyYear y1 || !pyTruthyYear y2)

/-- `tuple(sorted([p1['id'], p2['id']]))`. -/
def skey (p q : DPerson) : Nat × Nat := (min p.id q.id, max p.id q.id)

/-- Is `nd` a leading segment of `hay`? -/
def seqAt : List Char → List Char → Bool
  | [], _ => true
  | _ :: _, [] => false
  | c :: ns, h :: hs => c == h && seqAt ns hs

/-- Python `nd in hay` on strings: does `nd` occur contiguously in `hay`? -/
def hasSeq (hay nd : List Char) : Bool :=
  match hay with
  | [] => nd.isEmpty
  | _ :: hs => seqAt nd hay || hasSeq hs nd

/-- The pair plausibility score: +3 for identical known birth years
(else +2 when within 2), +2 for equal surname Soundex, +2 for equal given
Soundex, +2 for overlapping non-empty birth places. -/
def dupScore (p q : DPerson) : Int :=
  let y1 := extractYearStr p.birth_date
  let y2 := extractYearStr q.birth_date
  let s1 : Int :=
    if pyTruthyYear y1 && pyTruthyYear y2 && (y1.getD 0 == y2.getD 0) then 3
    else if pyTruthyYear y1 && pyTruthyYear y2 &&
        decide ((y1.getD 0 - y2.getD 0).natAbs ≤ 2) then 2
    else 0
  let s2 : Int := if soundex p.surname = soundex q.surname then 2 else 0
  let s3 : Int := if soundex p.given = soundex q.given then 2 else 0
  let bp1 := pyLower (orBlank p.birth_place)
  let bp2 := pyLower (orBlank q.birth_place)
  let s4 : Int :=
    if bp1 ≠ "" ∧ bp2 ≠ "" ∧
        (hasSeq bp2.data bp1.data ∨ hasSeq bp1.data bp2.data) then 2
    else 0
  s1 + s2 + s3 + s4

/-- A duplicate candidate, projected to the fields the claims are about:
its unordered id pair and its score. -/
structure DupCand where
  key : Nat × Nat
  score : Int
deriving DecidableEq, Repr

/-- State of the candidate accumulation: emitted candidates (in order)
and the global `seen_pairs` set. -/
abbrev DupSt := List DupCand × List (Nat × Nat)

/-- The innermost body: skip exact same names, apply the birth-year gate,
dedupe globally on the sorted id pair, then emit the scored candidate. -/
def pairStep (st : DupSt) (p q : DPerson) : DupSt :=
  if sameNameB p q then st
  else if !dateClose p.birth_date q.birth_date then st
  else
    let k := skey p q
    if k ∈ st.2 then st
    else (st.1 ++ [⟨k, dupScore p q⟩], k :: st.2)

/-- `for p2 in members[i+1:]`. -/
def innerLoop (p : DPerson) (rest : List DPerson) (st : DupSt) : DupSt :=
  rest.foldl (fun st q => pairStep st p q) st

/-- `for i, p1 in enumerate(members): for p2 in members[i+1:]`. -/
def memberLoop : List DPerson → DupSt → DupSt
  | [], st => st
  | p :: rest, st => memberLoop rest (innerLoop p rest st)

/-- All candidates in emission order (before sorting and capping);
groups with fewer than two members are skipped. -/
def dupCandsRaw (t : List DPerson) : List DupCand :=
  ((groupsOf t).foldl
    (fun st g => if g.2.length < 2 then st else memberLoop g.2 st)
    ([], [])).1

/-- Stable insertion into a score-descending candidate list. -/
def insertDescD (m : DupCand) : List DupCand → List DupCand
  | [] => [m]
  | x :: xs => if m.score ≥ x.score then m :: x :: xs else x :: insertDescD m xs

/-- Stable sort by score descending (`duplicates.sort(key=lambda x: -x['score'])`). -/
def sortDescD : List DupCand → List DupCand
  | [] => []
  | x :: xs => insertDescD x (sortDescD xs)

/-- The final duplicate-candidate list: sorted by score descending and
capped to the top 100 (`duplicates[:100]`). -/
def dupCands (t : List DPerson) : List DupCand :=
  (sortDescD (dupCandsRaw t)).take 100

/-- The unordered id pairs emitted before sorting and capping. -/
def rawKeys (t : List DPerson) : List (Nat × Nat) :=
  (dupCandsRaw t).map DupCand.key

/-- All position-ordered pairs of a list (`for i, p1 in enumerate(l):
for p2 in l[i+1:]`). -/
def ordPairs : List DPerson → List (DPerson × DPerson)
  | [] => []
  | x :: xs => xs.map (fun y => (x, y)) ++ ordPairs xs

/-- Members of the group with key `k` (first entry wins, `[]` if absent). -/
def lookupG : List (String × List DPerson) → String → List DPerson
  | [], _ => []
  | g :: gs, k => if g.1 == k then g.2 else lookupG gs k

/-! ## `clean_name` (scan_documents.py, lines 207–215) -/

/-- Python `str.isupper()` (ASCII model): at least one letter, and every
letter uppercase. -/
def pyIsUpper (s : String) : Bool :=
  s.data.any Char.isAlpha && s.data.all (fun c => !c.isAlpha || c.isUpper)

/-- Python `str.title()` (ASCII model): uppercase each letter that follows
a non-letter, lowercase the rest. -/
def pyTitleGo : Bool → List Char → List Char
  | _, [] => []
  | prevAlpha, c :: rest =>
    if c.isAlpha then
      (if prevAlpha then c.toLower else c.toUpper) :: pyTitleGo true rest
    else c :: pyTitleGo false rest

/-- Python `str.title()`. -/
def pyTitle (s : String) : String := ⟨pyTitleGo false s.data⟩

/-- Length of the span matched by `\s*\([^)]*\)` at the head of `l`
(leading whitespace, an opening parenthesis, everything up to and
including the first closing parenthesis), if it matches here. -/
def parenAt (l : List Char) : Option Nat :=
  let w := (l.takeWhile pyIsSpaceB).length
  match l.drop w with
  | '(' :: rest =>
    let m := (rest.takeWhile (fun c => c != ')')).length
    if m < rest.length then some (w + 1 + m + 1) else none
  | _ => none

/-- `re.sub(r"\s*\([^)]*\)", "", ...)`: remove every parenthetical aside
(with its leading whitespace); scanning resumes after each removal. -/
def remParenGo : Nat → List Char → List Char
  | 0, l => l
  | _ + 1, [] => []
  | fuel + 1, c :: rest =>
    match parenAt (c :: rest) with
    | some k => remParenGo fuel ((c :: rest).drop k)
    | none => c :: remParenGo fuel rest

/-- `re.sub(r"\s+\d+$", "", ...)`: remove a trailing run of digits
preceded by whitespace. -/
def remTrailNum (l : List Char) : List Char :=
  let rd := l.reverse
  let ds := rd.takeWhile Char.isDigit
  if ds.isEmpty then l
  else
    let ws := (rd.drop ds.length).takeWhile pyIsSpaceB
    if ws.isEmpty then l else ((rd.drop ds.length).drop ws.length).reverse

/-- `clean_name(raw)`: strip surrounding punctuation, remove parenthetical
asides, remove trailing bare numbers, collapse whitespace, and title-case
an all-uppercase result. -/
def cleanName (raw : String) : String :=
  let l := stripList
    (fun c => c == ' ' || c == '_' || c == '-' || c == '.' || c == ',' ||
      c == ';' || c == ':' || c == apos || c == '"') raw.data
  let l := remParenGo l.length l
  let l := remTrailNum l
  let s := String.intercalate " " (pySplitWs ⟨l⟩)
  if pyIsUpper s then pyTitle s else s

/-! ## `parse_ancestry_filename` (scan_documents.py, lines 123–204)

The regular expressions of the parser are realised as recognizers with
the semantics of `re` on the inputs in question: `re.match` anchors at
the start, `.` stands for any character (the filenames contain no
newlines), lazy groups `(.+?)` take the shortest prefix whose remainder
matches the rest of the pattern, greedy `\w+`/`\d+` runs are maximal
(they are always followed by a disjoint character class, so no global
backtracking is needed), and `\b` compares the neighbouring characters'
word-ness in the original string. -/

/-- `Path(filename).stem`: the name without its suffix; a suffix exists
iff the last dot sits strictly inside the name. -/
def pathStem (filename : String) : String :=
  let name := filename.data
  let n := name.length
  match name.reverse.findIdx? (fun c => c == '.') with
  | some ri =>
    let i := n - 1 - ri
    if 0 < i ∧ i < n - 1 then ⟨name.take i⟩ else filename
  | none => filename

/-- `^\d{4}_(.+)$`: strip a leading four-digit sequence number. -/
def dropLeadSeq (l : List Char) : List Char :=
  match l with
  | d1 :: d2 :: d3 :: d4 :: '_' :: rest =>
    if d1.isDigit && d2.isDigit && d3.isDigit && d4.isDigit && !rest.isEmpty then
      rest
    else l
  | _ => l

/-- Hex digit for `[0-9a-f]` under `re.IGNORECASE`. -/
def isHexD (c : Char) : Bool :=
  c.isDigit || ('a' ≤ c && c ≤ 'f') || ('A' ≤ c && c ≤ 'F')

/-- `^(.+?)_[0-9a-f]{8}$`: strip a trailing underscore-plus-8-hex hash
(the tail has fixed width 9, so the lazy group is forced). -/
def dropTrailHash (l : List Char) : List Char :=
  let n := l.length
  if decide (n ≥ 10) && (l.getD (n - 9) ' ' == '_') && (l.drop (n - 8)).all isHexD then
    l.take (n - 9)
  else l

/-- Drop leading whitespace. -/
def dropWsL (l : List Char) : List Char := l.dropWhile pyIsSpaceB

/-- `\s*-\s*`: optional whitespace, a literal dash, optional whitespace. -/
def sepDash (l : List Char) : Option (List Char) :=
  match dropWsL l with
  | '-' :: r => some (dropWsL r)
  | _ => none

/-- `\s+\w+\s+\d{4}` — the tail of the date group; returns the matched
characters and the remainder. -/
def dateTail (l : List Char) : Option (List Char × List Char) :=
  let w := l.takeWhile pyIsSpaceB
  if w.isEmpty then none
  else
    let l1 := l.drop w.length
    let word := l1.takeWhile isWordChar
    if word.isEmpty then none
    else
      let l2 := l1.drop word.length
      let w2 := l2.takeWhile pyIsSpaceB
      if w2.isEmpty then none
      else
        match l2.drop w2.length with
        | a :: b :: c :: d :: rest =>
          if a.isDigit && b.isDigit && c.isDigit && d.isDigit then
            some (w ++ word ++ w2 ++ [a, b, c, d], rest)
          else none
        | _ => none

/-- The date group `(\d{1,2}\s+\w+\s+\d{4})`: greedy `\d{1,2}` tries two
digits first, then backtracks to one. -/
def parseDateG (l : List Char) : Option (List Char × List Char) :=
  match l with
  | a :: b :: rest =>
    if a.isDigit && b.isDigit then
      match dateTail rest with
      | some (cap, r) => some (a :: b :: cap, r)
      | none =>
        match dateTail (b :: rest) with
        | some (cap, r) => some (a :: cap, r)
        | none => none
    else if a.isDigit then
      match dateTail (b :: rest) with
      | some (cap, r) => some (a :: cap, r)
      | none => none
    else none
  | _ => none

/-- `\s*-\s*\d+\s+(.+)`: the content group after the date. -/
def newsContent (l : List Char) : Option (List Char) :=
  match sepDash l with
  | none => none
  | some l1 =>
    let ds := l1.takeWhile Char.isDigit
    if ds.isEmpty then none
    else
      let l2 := l1.drop ds.length
      let w := l2.takeWhile pyIsSpaceB
      if w.isEmpty then none
      else
        let rest := l2.drop w.length
        if rest.isEmpty then none else some rest

/-- What must follow the paper group: `\s*-\s*(date)\s*-\s*\d+\s+(.+)`. -/
def newsAfterPaper (l : List Char) : Option (List Char × List Char) :=
  match sepDash l with
  | none => none
  | some l1 =>
    match parseDateG l1 with
    | none => none
    | some (date, l2) =>
      match newsContent l2 with
      | none => none
      | some content => some (date, content)

/-- The lazy paper group `(.+?)`: the shortest non-empty prefix whose
remainder matches the rest of the pattern. -/
def paperSplit : List Char → List Char → Option (List Char × List Char × List Char)
  | _, [] => none
  | acc, c :: rest =>
    match newsAfterPaper rest with
    | some (d, cont) => some (acc ++ [c], d, cont)
    | none => paperSplit (acc ++ [c]) rest

/-- The Newspapers.com filename pattern (scan_documents.py, lines 152–155):
`Newspapers\.com\s*-\s*(.+?)\s*-\s*(\d{1,2}\s+\w+\s+\d{4})\s*-\s*\d+\s+(.+)`
under `re.IGNORECASE`, anchored at the start. -/
def newsParse (desc : String) : Option (String × String × String) :=
  let l := desc.data
  if prefixIC "newspapers.com".data l then
    match paperSplit [] (l.drop 14) with
    | some (p, d, c) => some (⟨p⟩, ⟨d⟩, ⟨c⟩)
    | none => none
  else none

/-- Case-insensitive literal followed by `\s+`; returns the remainder. -/
def litWsIC (lit : List Char) (l : List Char) : Option (List Char) :=
  if prefixIC lit l then
    let r := l.drop lit.length
    let w := r.takeWhile pyIsSpaceB
    if w.isEmpty then none else some (r.drop w.length)
  else none

/-- Does `l` match `\s*\(Aged\s+\d+\)` exactly to the end of the string? -/
def agedEnd (l : List Char) : Bool :=
  match dropWsL l with
  | '(' :: r =>
    if prefixIC "aged".data r then
      let r1 := r.drop 4
      let w := r1.takeWhile pyIsSpaceB
      if w.isEmpty then false
      else
        let r2 := r1.drop w.length
        let ds := r2.takeWhile Char.isDigit
        if ds.isEmpty then false
        else
          match r2.drop ds.length with
          | [')'] => true
          | _ => false
    else false
  | _ => false

/-- The lazy name group of the obituary pattern: shortest non-empty prefix
whose remainder is empty or an `(Aged n)` suffix. -/
def obitSplit : List Char → List Char → Option String
  | _, [] => none
  | acc, c :: rest =>
    if rest.isEmpty || agedEnd rest then some ⟨acc ++ [c]⟩
    else obitSplit (acc ++ [c]) rest

/-- `Obituary\s+for\s+(.+?)(?:\s*\(Aged\s+\d+\))?$` (IGNORECASE, anchored). -/
def obitParse (content : String) : Option String :=
  match litWsIC "obituary".data content.data with
  | none => none
  | some r1 =>
    match litWsIC "for".data r1 with
    | none => none
    | some r2 => obitSplit [] r2

/-- `\s*[_&]\s*(.+)` after the first marriage name. -/
def marrSep (l : List Char) : Option (List Char) :=
  match dropWsL l with
  | c :: r =>
    if c == '_' || c == '&' then
      let r1 := dropWsL r
      if r1.isEmpty then none else some r1
    else none
  | [] => none

/-- The lazy first-name group of the marriage pattern. -/
def marrSplit : List Char → List Char → Option (String × String)
  | _, [] => none
  | acc, c :: rest =>
    match marrSep rest with
    | some g2 => some (⟨acc ++ [c]⟩, ⟨g2⟩)
    | none => marrSplit (acc ++ [c]) rest

/-- `Marriage\s+of\s+(.+?)\s*[_&]\s*(.+)` (IGNORECASE, anchored). -/
def marrParse (content : String) : Option (String × String) :=
  match litWsIC "marriage".data content.data with
  | none => none
  | some r1 =>
    match litWsIC "of".data r1 with
    | none => none
    | some r2 => marrSplit [] r2

/-- `Birth\s+announcement\s+(.+)` (IGNORECASE, anchored). -/
def birthParse (content : String) : Option String :=
  match litWsIC "birth".data content.data with
  | none => none
  | some r1 =>
    match litWsIC "announcement".data r1 with
    | none => none
    | some r2 => if r2.isEmpty then none else some ⟨r2⟩

/-- Word boundary after a literal: next character absent or not a word
character. -/
def wordBoundAfter : List Char → Bool
  | [] => true
  | x :: _ => !isWordChar x

/-- Case-insensitive literal with a trailing `\b`. -/
def litBoundIC (lit : List Char) (l : List Char) : Bool :=
  prefixIC lit l && wordBoundAfter (l.drop lit.length)

/-- `\s+(w1|w2|…)\b` at the head of `l`. -/
def wsThenWords (ws : List (List Char)) (l : List Char) : Bool :=
  let w := l.takeWhile pyIsSpaceB
  !w.isEmpty && ws.any (fun lit => litBoundIC lit (l.drop w.length))

/-- `'s?\s+(Portrait|Photo|Picture|Image)\b` at the head of `l` (the
optional `s` is forced: if present it must be consumed, since `\s+`
cannot match the letter `s`). -/
def sub1At (l : List Char) : Bool :=
  match l with
  | c :: r =>
    if c == apos then
      let r1 := match r with
        | x :: r' => if x == 's' || x == 'S' then r' else r
        | [] => r
      wsThenWords ["portrait".data, "photo".data, "picture".data, "image".data] r1
    else false
  | [] => false

/-- `\s+(Enhanced|Colorized|Restored)\b` at the head of `l`. -/
def sub2At (l : List Char) : Bool :=
  wsThenWords ["enhanced".data, "colorized".data, "restored".data] l

/-- `\s+of\s+\w+\b` at the head of `l`. -/
def sub5At (l : List Char) : Bool :=
  let w := l.takeWhile pyIsSpaceB
  if w.isEmpty then false
  else
    let r := l.drop w.length
    if prefixIC "of".data r then
      let r1 := r.drop 2
      let w2 := r1.takeWhile pyIsSpaceB
      if w2.isEmpty then false
      else
        match r1.drop w2.length with
        | x :: _ => isWordChar x
        | [] => false
    else false

/-- `\s+(top|bottom|left|right|front|back|row)\b` at the head of `l`. -/
def sub6At (l : List Char) : Bool :=
  wsThenWords ["top".data, "bottom".data, "left".data, "right".data,
    "front".data, "back".data, "row".data] l

/-- `re.sub(pat + ".*", "", s)` for a pattern matched by `h`: cut the
string at the earliest position where `h` matches (the `.*` swallows the
rest of the line). -/
def cutScan (h : List Char → Bool) : List Char → List Char
  | [] => []
  | c :: rest => if h (c :: rest) then [] else c :: cutScan h rest

/-- `re.sub(r"\b" + lit + r"\b", "", s)` under IGNORECASE: remove every
occurrence of the literal with word boundaries on both sides; scanning
resumes after each removal. -/
def remLitGo (lit : List Char) : Nat → Option Char → List Char → List Char
  | 0, _, l => l
  | _ + 1, _, [] => []
  | fuel + 1, prev, c :: rest =>
    let bBefore := match prev with
      | some pc => !isWordChar pc
      | none => true
    if bBefore && litBoundIC lit (c :: rest) then
      let seg := (c :: rest).take lit.length
      remLitGo lit fuel (some (seg.getLastD ' ')) ((c :: rest).drop lit.length)
    else c :: remLitGo lit fuel (some c) rest

/-- Length of a `\bBirth\s*\d{4}\b` match starting here (without the
boundary-before check, handled by the caller). -/
def sub4At (l : List Char) : Option Nat :=
  if prefixIC "birth".data l then
    let r := l.drop 5
    let w := r.takeWhile pyIsSpaceB
    let r1 := r.drop w.length
    match r1 with
    | a :: b :: c :: d :: rest =>
      if a.isDigit && b.isDigit && c.isDigit && d.isDigit && wordBoundAfter rest then
        some (5 + w.length + 4)
      else none
    | _ => none
  else none

/-- `re.sub(r"\bBirth\s*\d{4}\b", "", s)` (IGNORECASE, global). -/
def sub4Go : Nat → Option Char → List Char → List Char
  | 0, _, l => l
  | _ + 1, _, [] => []
  | fuel + 1, prev, c :: rest =>
    let bBefore := match prev with
      | some pc => !isWordChar pc
      | none => true
    match (if bBefore then sub4At (c :: rest) else none) with
    | some k =>
      let seg := (c :: rest).take k
      sub4Go fuel (some (seg.getLastD ' ')) ((c :: rest).drop k)
    | none => c :: sub4Go fuel (some c) rest

/-- `^(IMG|image|Photo|photo|DSC|DSCN|pic)\b` (IGNORECASE): the
camera/scan default-name test. -/
def imgMatch (l : List Char) : Bool :=
  ["img".data, "image".data, "photo".data, "dsc".data, "dscn".data,
    "pic".data].any (fun w => litBoundIC w l)

/-- Does the 4-char window starting here match `1[7-9]\d{2}|20[0-3]\d`? -/
def yearPatOK (a b c d : Char) : Bool :=
  (a == '1' && ('7' ≤ b && b ≤ '9') && c.isDigit && d.isDigit) ||
  (a == '2' && b == '0' && ('0' ≤ c && c ≤ '3') && d.isDigit)

/-- `re.finditer(r"\b(1[7-9]\d{2}|20[0-3]\d)\b", s)`: collect the years,
scanning resumes after each non-overlapping match. -/
def findYearsPat : Option Char → List Char → List Int
  | prev, c :: b :: c2 :: d :: rest' =>
    let bBefore := match prev with
      | some pc => !isWordChar pc
      | none => true
    let bAfter := match rest' with
      | [] => true
      | x :: _ => !isWordChar x
    if bBefore && yearPatOK c b c2 d && bAfter then
      digitsVal [c, b, c2, d] :: findYearsPat (some d) rest'
    else findYearsPat (some c) (b :: c2 :: d :: rest')
  | _, _ => []

/-- `re.search(r"\b(\d{4})\b", s)`: the first four-digit run with word
boundaries. -/
def findYear4 : Option Char → List Char → Option Int
  | prev, c :: b :: c2 :: d :: rest' =>
    let bBefore := match prev with
      | some pc => !isWordChar pc
      | none => true
    let bAfter := match rest' with
      | [] => true
      | x :: _ => !isWordChar x
    if bBefore && c.isDigit && b.isDigit && c2.isDigit && d.isDigit && bAfter then
      some (digitsVal [c, b, c2, d])
    else findYear4 (some c) (b :: c2 :: d :: rest')
  | _, _ => none

/-- The result of `parse_ancestry_filename` (the `doc_hint` field, a
keyword lookup over the filename used only for display metadata, is not
consulted by any claim and is omitted). -/
structure ParsedFilename where
  description : String
  names : List String
  years : Finset Int

/-- `parse_ancestry_filename(filename)`. -/
def parseAncestryFilename (filename : String) : ParsedFilename :=
  let stem0 := pathStem filename
  let stem1 := dropLeadSeq stem0.data
  let stem2 := dropTrailHash stem1
  let description : String := pyStripWs ⟨stem2⟩
  let descYears : List Int := findYearsPat none description.data
  match newsParse description with
  | some (_paper, date, content0) =>
    let newsYears : List Int :=
      match findYear4 none date.data with
      | some y => [y]
      | none => []
    let content := pyStripWs content0
    let names0 : List String :=
      (match obitParse content with
        | some n => [cleanName n]
        | none => []) ++
      (match marrParse content with
        | some nn => [cleanName nn.1, cleanName nn.2]
        | none => []) ++
      (match birthParse content with
        | some n => [cleanName n]
        | none => [])
    let names1 := if names0 = [] then [cleanName content] else names0
    let names := names1.filter (fun n => n ≠ "" ∧ n.length > 2)
    ⟨description, names, (newsYears ++ descYears).foldl (fun s y => insert y s) ∅⟩
  | none =>
    let d1 := cutScan sub1At description.data
    let d2 := cutScan sub2At d1
    let d3 := remLitGo "death certificate".data d2.length none d2
    let d4 := sub4Go d3.length none d3
    let d5 := cutScan sub5At d4
    let d6 := cutScan sub6At d5
    let dc : String := ⟨stripList
      (fun c => c == ' ' || c == '_' || c == '-' || c == ',') d6⟩
    let names0 : List String :=
      if dc ≠ "" ∧ ¬imgMatch dc.data ∧
          ((pySplitWs dc).length ≥ 2 ∨ dc.length > 3) then
        [cleanName dc]
      else []
    let names := names0.filter (fun n => n ≠ "" ∧ n.length > 2)
    ⟨description, names, descYears.foldl (fun s y => insert y s) ∅⟩

/-! ## Helper lemmas -/

theorem dmFind_map_keep (t : DMTable) (d p : Nat) (f : DMRow → DMRow)
    (hf : ∀ r, (f r).doc = r.doc ∧ (f r).person = r.person) :
    dmFind (t.map f) d p = (dmFind t d p).map f := by
  induction t with
  | nil => rfl
  | cons r rest ih =>
    rw [List.map_cons]
    show (if (f r).doc == d && (f r).person == p then some (f r)
      else dmFind (rest.map f) d p) = _
    rw [(hf r).1, (hf r).2]
    by_cases h : (r.doc == d && r.person == p) = true
    · rw [if_pos h]
      show _ = (if r.doc == d && r.person == p then some r else dmFind rest d p).map f
      rw [if_pos h, Option.map_some']
    · rw [if_neg h, ih]
      show _ = (if r.doc == d && r.person == p then some r else dmFind rest d p).map f
      rw [if_neg h]

theorem dmFind_append_left {t : DMTable} {l : DMTable} {d p : Nat} {r : DMRow}
    (h : dmFind t d p = some r) : dmFind (t ++ l) d p = some r := by
  induction t with
  | nil => exact absurd h (by simp [dmFind])
  | cons a rest ih =>
    rw [List.cons_append]
    show (if a.doc == d && a.person == p then some a else dmFind (rest ++ l) d p) = some r
    by_cases ha : (a.doc == d && a.person == p) = true
    · rw [if_pos ha]
      rw [show dmFind (a :: rest) d p =
        (if a.doc == d && a.person == p then some a else dmFind rest d p) from rfl,
        if_pos ha] at h
      exact h
    · rw [if_neg ha]
      rw [show dmFind (a :: rest) d p =
        (if a.doc == d && a.person == p then some a else dmFind rest d p) from rfl,
        if_neg ha] at h
      exact ih h

theorem upsert_no_downgrade (t : DMTable) (d p : Nat) (c : ℚ) (sn tag : String)
    (r : DMRow) (hr : dmFind t d p = some r) (hc : c ≤ r.conf) :
    upsertIfHigher t d p c sn tag = t := by
  simp only [upsertIfHigher, hr]
  exact if_neg (not_lt.mpr hc)

theorem upsert_preserves_verified (t : DMTable) (d p : Nat) (c : ℚ) (sn tag : String)
    (d' p' : Nat) (r : DMRow) (hr : dmFind t d' p' = some r) :
    ∃ r', dmFind (upsertIfHigher t d p c sn tag) d' p' = some r' ∧
      r'.verified = r.verified := by
  cases hf : dmFind t d p with
  | none =>
    simp only [upsertIfHigher, hf]
    exact ⟨r, dmFind_append_left hr, rfl⟩
  | some r0 =>
    simp only [upsertIfHigher, hf]
    by_cases hc : c > r0.conf
    · rw [if_pos hc]
      rw [dmFind_map_keep t d' p' _ (fun r'' => by
        by_cases hk : (r''.doc == d && r''.person == p) = true <;> simp [hk])]
      rw [hr]
      refine ⟨_, rfl, ?_⟩
      by_cases hk : (r.doc == d && r.person == p) = true <;> simp [hk]
    · rw [if_neg hc]
      exact ⟨r, hr, rfl⟩

theorem dmFind_filter_out_none (t : DMTable) (d p : Nat) :
    dmFind (t.filter (fun r => !(r.doc == d && r.person == p))) d p = none := by
  induction t with
  | nil => rfl
  | cons a rest ih =>
    by_cases ha : (a.doc == d && a.person == p) = true
    · rw [List.filter_cons_of_neg (by simp [ha])]
      exact ih
    · rw [List.filter_cons_of_pos (by simp [ha])]
      show (if a.doc == d && a.person == p then some a
        else dmFind (rest.filter _) d p) = none
      rw [if_neg ha]
      exact ih

theorem dmFind_reject_none (t : DMTable) (d p : Nat) :
    dmFind (reviewReject t d p) d p = none :=
  dmFind_filter_out_none t d p

/-! ## Claim C1 -/

/-- Claim C1 counterexample: the filename pass (`INSERT OR REPLACE`,
scan_documents.py lines 838–843) replaces a stored match of confidence
0.9 with a lower-confidence 0.82 row, so "no pass (filename, OCR, or
vision) ever replaces a stored match with a lower-confidence one" is
false as stated. -/
theorem C1_counterexample :
    (82 / 100 : ℚ) < 9 / 10 ∧
    (dmFind (filenameApplyMatch [⟨1, 1, "ocr_auto", 9 / 10, "snip", false⟩]
      1 1 (82 / 100) "x") 1 1).map DMRow.conf = some (41 / 50) ∧
    (41 / 50 : ℚ) ≠ 9 / 10 := by
  refine ⟨by norm_num, ?_, by norm_num⟩
  with_unfolding_all decide

/-- Claim C1 (amended): the OCR and vision passes never downgrade — when
the proposed confidence (for vision, after its +0.05 clamp) is not
strictly greater than the stored confidence, the table is left completely
unchanged; the filename pass, by contrast, writes with an unconditional
`INSERT OR REPLACE`. -/
theorem C1_ocr_vision_no_downgrade (t : DMTable) (d p : Nat) (c : ℚ) (sn : String)
    (r : DMRow) (hr : dmFind t d p = some r) :
    (c ≤ r.conf → ocrApplyMatch t d p c sn = t) ∧
    (min (c + 5 / 100) 1 ≤ r.conf → visionApplyMatch t d p c sn = t) :=
  ⟨fun h => upsert_no_downgrade t d p c sn "ocr_auto" r hr h,
   fun h => upsert_no_downgrade t d p _ sn "vision_auto" r hr h⟩

/-- Witness for C1: a stored 0.9 match survives an OCR proposal at 0.8
unchanged. -/
theorem C1_no_downgrade_witness :
    ocrApplyMatch [⟨1, 1, "filename", 9 / 10, "s", false⟩] 1 1 (8 / 10) "x" =
      [⟨1, 1, "filename", 9 / 10, "s", false⟩] :=
  (C1_ocr_vision_no_downgrade [⟨1, 1, "filename", 9 / 10, "s", false⟩] 1 1 (8 / 10) "x"
    ⟨1, 1, "filename", 9 / 10, "s", false⟩ rfl).1 (by norm_num)

/-! ## Claim C2 -/

/-- Claim C2 counterexample: the filename pass's `INSERT OR REPLACE`
deletes a `verified=true` row and replaces it with a fresh unverified
row, so "a DocumentMatch row with verified=true is never deleted or
overwritten by any automatic pass" is false as stated. -/
theorem C2_counterexample :
    (dmFind (filenameApplyMatch [⟨1, 1, "manual", 1, "s", true⟩] 1 1 (9 / 10) "x")
      1 1).map DMRow.verified = some false ∧
    (⟨1, 1, "manual", 1, "s", true⟩ : DMRow) ∉
      filenameApplyMatch [⟨1, 1, "manual", 1, "s", true⟩] 1 1 (9 / 10) "x" := by
  constructor
  · with_unfolding_all decide
  · with_unfolding_all decide

/-- Claim C2 (amended): the OCR and vision passes never delete a
DocumentMatch row and never change its `verified` flag (their UPDATE
touches only confidence/snippet/method); explicit human rejection during
review deletes the row; the filename pass's insert-or-replace, however,
can delete and re-create even a verified row. -/
theorem C2_ocr_vision_preserve_verified (t : DMTable) (d p : Nat) (c : ℚ) (sn : String)
    (d' p' : Nat) (r : DMRow) (hr : dmFind t d' p' = some r) :
    (∃ r', dmFind (ocrApplyMatch t d p c sn) d' p' = some r' ∧
      r'.verified = r.verified) ∧
    (∃ r', dmFind (visionApplyMatch t d p c sn) d' p' = some r' ∧
      r'.verified = r.verified) ∧
    dmFind (reviewReject t d' p') d' p' = none :=
  ⟨upsert_preserves_verified t d p c sn "ocr_auto" d' p' r hr,
   upsert_preserves_verified t d p _ sn "vision_auto" d' p' r hr,
   dmFind_reject_none t d' p'⟩

/-- Witness for C2: a verified row keeps its flag through an OCR upgrade. -/
theorem C2_preserve_witness :
    ∃ r', dmFind (ocrApplyMatch [⟨1, 1, "manual", 9 / 10, "s", true⟩] 1 1 (95 / 100) "x")
      1 1 = some r' ∧ r'.verified = (⟨1, 1, "manual", 9 / 10, "s", true⟩ : DMRow).verified :=
  (C2_ocr_vision_preserve_verified [⟨1, 1, "manual", 9 / 10, "s", true⟩] 1 1 (95 / 100) "x"
    1 1 ⟨1, 1, "manual", 9 / 10, "s", true⟩ rfl).1

/-! ## Claim C4 -/

/-- Claim C4 counterexample: `name_similarity` is not symmetric —
`SequenceMatcher` depends on the argument order
(ratio("aba","babba") = 3/4 but ratio("babba","aba") = 1/2). -/
theorem C4_counterexample :
    nameSimilarity "aba" "babba" = 3 / 4 ∧ nameSimilarity "babba" "aba" = 1 / 2 ∧
    nameSimilarity "aba" "babba" ≠ nameSimilarity "babba" "aba" := by
  refine ⟨?_, ?_, ?_⟩ <;> with_unfolding_all decide

/-- Claim C4 (amended): `name_similarity` is reflexive — `similarity(a,a)
= 1.0` for every string — and any two strings identical after
lowercasing and stripping score exactly 1.0 in both argument orders;
full symmetry fails in general. -/
theorem C4_reflexive_casefold (a b : String) :
    nameSimilarity a a = 1 ∧
    (pyStripWs (pyLower a) = pyStripWs (pyLower b) →
      nameSimilarity a b = 1 ∧ nameSimilarity b a = 1) := by
  refine ⟨?_, fun h => ⟨?_, ?_⟩⟩
  · unfold nameSimilarity
    exact if_pos rfl
  · unfold nameSimilarity
    exact if_pos h
  · unfold nameSimilarity
    exact if_pos h.symm

/-- Witness for C4: two strings equal after casefolding score 1.0. -/
theorem C4_casefold_witness :
    nameSimilarity "Mary Harrison" " MARY HARRISON " = 1 :=
  ((C4_reflexive_casefold "Mary Harrison" " MARY HARRISON ").2 (by decide)).1

/-! ## Claim C5 -/

theorem soundexLoop_eq_destutter (l : List Char) (prev : Option Char) :
    soundexLoop prev l = destutterFrom prev (l.filterMap soundexCode) := by
  induction l generalizing prev with
  | nil => rfl
  | cons c rest ih =>
    cases h : soundexCode c with
    | none =>
      rw [List.filterMap_cons_none h]
      simp only [soundexLoop, h]
      exact ih prev
    | some d =>
      rw [List.filterMap_cons_some h]
      simp only [soundexLoop, h, destutterFrom]
      by_cases hpd : some d = prev
      · rw [if_neg (by simp [hpd]), if_pos hpd]
        exact ih (some d)
      · rw [if_pos (by simp [hpd]), if_neg hpd, ih (some d)]

/-- Claim C5 counterexample: `soundex` does not follow the claim. The two
B's of "BOB" are not consecutive (the vowel O intervenes) yet they still
collapse — the code's `prev` persists across unmapped letters — so the
code yields "B000" where the claimed consecutive-only collapse yields
"B100"; the empty string maps to `''` (length 0, not 4); and the first
letter is uppercased rather than kept verbatim (`soundex "smith"` starts
with `'S'`, not `'s'`). -/
theorem C5_counterexample :
    soundex "BOB" = "B000" ∧ soundexConsec "BOB" = "B100" ∧
    soundex "BOB" ≠ soundexConsec "BOB" ∧
    (soundex "").length = 0 ∧
    (soundex "smith").data.headD ' ' ≠ "smith".data.headD ' ' := by
  refine ⟨by decide, by decide, by decide, by decide, by decide⟩

/-- Claim C5 (amended): for every non-empty input the result is exactly 4
characters; the first letter of the *uppercased* input is kept; letters
map through the fixed consonant-class table (vowels and H/W/Y unmapped);
a letter collapses when its class equals the class of the most recent
*mapped* letter — unmapped letters do not reset the previous class — with
the first letter's class as the initial value; the empty string yields
the empty string.  `soundexSpecA` states this rule as
filter-then-destutter, and the code realises it. -/
theorem C5_soundex_amended (s : String) :
    soundex s = soundexSpecA s ∧ (s ≠ "" → (soundex s).length = 4) := by
  constructor
  · unfold soundex soundexSpecA
    cases h : (pyUpper s).data with
    | nil => rfl
    | cons c rest =>
      show (⟨((c :: soundexLoop (soundexCode c) rest) ++ ['0', '0', '0']).take 4⟩ : String) =
        ⟨((c :: destutterFrom (soundexCode c) (rest.filterMap soundexCode)) ++
          ['0', '0', '0']).take 4⟩
      rw [soundexLoop_eq_destutter]
  · intro hs
    unfold soundex
    cases h : (pyUpper s).data with
    | nil =>
      exfalso
      apply hs
      have hd : s.data.map Char.toUpper = [] := h
      have : s.data = [] := by
        cases hsd : s.data with
        | nil => rfl
        | cons x xs => rw [hsd] at hd; simp at hd
      cases s with
      | mk d => simp_all
    | cons c rest =>
      show (((c :: soundexLoop (soundexCode c) rest) ++ ['0', '0', '0']).take 4).length = 4
      rw [List.length_take]
      simp [List.length_append]

/-- Witness for C5: `soundex "smith" = "S530"` has length 4. -/
theorem C5_length_witness : (soundex "smith").length = 4 :=
  (C5_soundex_amended "smith").2 (by decide)

/-! ## Claim C7 -/

theorem ite_le_ite_of_imp {c1 c2 : Prop} [Decidable c1] [Decidable c2] {v : ℚ}
    (hv : 0 ≤ v) (h : c1 → c2) :
    (if c1 then v else 0) ≤ (if c2 then v else 0) := by
  by_cases h1 : c1
  · rw [if_pos h1, if_pos (h h1)]
  · rw [if_neg h1]
    by_cases h2 : c2 <;> simp [h2, hv]

theorem yearBoost_nonneg (p : Person) (years : Finset Int) :
    0 ≤ yearBoost p years := by
  unfold yearBoost
  split
  · exact le_refl 0
  · apply add_nonneg <;> · split <;> norm_num

theorem yearBoost_mono_insert (p : Person) (years : Finset Int) (y : Int) :
    yearBoost p years ≤ yearBoost p (insert y years) := by
  by_cases hy : years = ∅
  · rw [hy]
    have h0 : yearBoost p ∅ = 0 := by unfold yearBoost; rw [if_pos rfl]
    rw [h0]
    exact yearBoost_nonneg p (insert y ∅)
  · unfold yearBoost
    rw [if_neg hy, if_neg (Finset.insert_ne_empty y years)]
    apply add_le_add
    · exact ite_le_ite_of_imp (by norm_num)
        (fun hc => ⟨hc.1, Finset.mem_insert_of_mem hc.2⟩)
    · exact ite_le_ite_of_imp (by norm_num)
        (fun hc => ⟨hc.1, Finset.mem_insert_of_mem hc.2⟩)

/-- Claim C7: the birth-year boost (0.12) and death-year boost (0.08) are
additive on top of the best string score with the total clamped to 1.0,
and adding the person's birth year to the document's year set never
lowers that person's final score. -/
theorem C7_year_corroboration_monotone (names : List String) (p : Person)
    (years : Finset Int) (y : Int) (hb : extractYearStr p.birth_date = some y) :
    finalScoreOf names p years ≤ finalScoreOf names p (insert y years) ∧
    finalScoreOf names p (insert y years) =
      min ((bestFor names (orBlank p.given_name) (orBlank p.surname)
        (fullNameOf p)).score + yearBoost p (insert y years)) 1 := by
  refine ⟨?_, rfl⟩
  unfold finalScoreOf
  exact min_le_min (add_le_add_left (yearBoost_mono_insert p years y) _) le_rfl

/-- Witness for C7: adding Mary Harrison's birth year 1880 to an empty
document year set does not lower her final score. -/
theorem C7_monotone_witness :
    finalScoreOf ["Mary Harrison"] ⟨1, some "Mary", some "Harrison", some "1880-01-02", none⟩ ∅ ≤
      finalScoreOf ["Mary Harrison"] ⟨1, some "Mary", some "Harrison", some "1880-01-02", none⟩
        (insert 1880 ∅) :=
  (C7_year_corroboration_monotone ["Mary Harrison"]
    ⟨1, some "Mary", some "Harrison", some "1880-01-02", none⟩ ∅ 1880 (by decide)).1

/-! ## Claim C6 -/

theorem matchStep_inv (names : List String) (years : Finset Int) (thr : ℚ)
    (acc : List MatchRow × List Nat) (p : Person)
    (h1 : ∀ m ∈ acc.1, thr ≤ m.score ∧ m.score ≤ 1)
    (h2 : (acc.1.map MatchRow.pid).Nodup)
    (h3 : ∀ i ∈ acc.1.map MatchRow.pid, i ∈ acc.2) :
    (∀ m ∈ (matchStep names years thr acc p).1, thr ≤ m.score ∧ m.score ≤ 1) ∧
    ((matchStep names years thr acc p).1.map MatchRow.pid).Nodup ∧
    (∀ i ∈ (matchStep names years thr acc p).1.map MatchRow.pid,
      i ∈ (matchStep names years thr acc p).2) := by
  simp only [matchStep]
  split_ifs with hlen hcond
  · exact ⟨h1, h2, h3⟩
  · obtain ⟨hge, hnot⟩ := hcond
    refine ⟨?_, ?_, ?_⟩
    · intro m hm
      rcases List.mem_append.mp hm with hm | hm
      · exact h1 m hm
      · rw [List.mem_singleton.mp hm]
        exact ⟨hge, min_le_right _ _⟩
    · rw [List.map_append, List.nodup_append]
      refine ⟨h2, List.nodup_singleton _, ?_⟩
      intro x hx hx2
      rw [List.map_singleton, List.mem_singleton] at hx2
      apply hnot
      have hmem := h3 x hx
      rw [hx2] at hmem
      exact hmem
    · intro i hi
      rw [List.map_append] at hi
      rcases List.mem_append.mp hi with hi | hi
      · exact List.mem_cons_of_mem _ (h3 i hi)
      · rw [List.map_singleton, List.mem_singleton] at hi
        rw [hi]
        exact List.mem_cons_self _ _
  · exact ⟨h1, h2, h3⟩

theorem matchFold_inv (names : List String) (years : Finset Int) (thr : ℚ)
    (people : List Person) (acc : List MatchRow × List Nat)
    (h1 : ∀ m ∈ acc.1, thr ≤ m.score ∧ m.score ≤ 1)
    (h2 : (acc.1.map MatchRow.pid).Nodup)
    (h3 : ∀ i ∈ acc.1.map MatchRow.pid, i ∈ acc.2) :
    (∀ m ∈ (people.foldl (matchStep names years thr) acc).1,
      thr ≤ m.score ∧ m.score ≤ 1) ∧
    ((people.foldl (matchStep names years thr) acc).1.map MatchRow.pid).Nodup := by
  induction people generalizing acc with
  | nil => exact ⟨h1, h2⟩
  | cons p rest ih =>
    rw [List.foldl_cons]
    obtain ⟨g1, g2, g3⟩ := matchStep_inv names years thr acc p h1 h2 h3
    exact ih _ g1 g2 g3

theorem insertDesc_perm (m : MatchRow) (l : List MatchRow) :
    List.Perm (insertDesc m l) (m :: l) := by
  induction l with
  | nil => exact List.Perm.refl _
  | cons x xs ih =>
    unfold insertDesc
    split
    · exact List.Perm.refl _
    · exact (List.Perm.cons x ih).trans (List.Perm.swap m x xs)

theorem sortDesc_perm (l : List MatchRow) : List.Perm (sortDesc l) l := by
  induction l with
  | nil => exact List.Perm.refl _
  | cons x xs ih => exact (insertDesc_perm x (sortDesc xs)).trans (List.Perm.cons x ih)

theorem insertDesc_pairwise {m : MatchRow} {l : List MatchRow}
    (h : l.Pairwise (fun a b => b.score ≤ a.score)) :
    (insertDesc m l).Pairwise (fun a b => b.score ≤ a.score) := by
  induction l with
  | nil => simp [insertDesc]
  | cons x xs ih =>
    have hx := List.pairwise_cons.mp h
    unfold insertDesc
    split
    case isTrue hge =>
      rw [List.pairwise_cons]
      refine ⟨?_, h⟩
      intro y hy
      rcases List.mem_cons.mp hy with rfl | hy
      · exact hge
      · exact le_trans (hx.1 y hy) hge
    case isFalse hlt =>
      rw [List.pairwise_cons]
      refine ⟨?_, ih hx.2⟩
      intro y hy
      rcases List.mem_cons.mp ((insertDesc_perm m xs).subset hy) with rfl | hy2
      · exact (not_le.mp hlt).le
      · exact hx.1 y hy2

theorem sortDesc_pairwise (l : List MatchRow) :
    (sortDesc l).Pairwise (fun a b => b.score ≤ a.score) := by
  induction l with
  | nil => simp [sortDesc]
  | cons x xs ih => exact insertDesc_pairwise ih

theorem mem_match_score_bounds {names : List String} {people : List Person}
    {years : Finset Int} {thr : ℚ} {m : MatchRow}
    (hm : m ∈ matchNamesToPeople names people years thr) :
    thr ≤ m.score ∧ m.score ≤ 1 := by
  have h := matchFold_inv names years thr people ([], []) (by simp) (by simp) (by simp)
  exact h.1 m ((sortDesc_perm _).subset (List.mem_of_mem_take hm))

/-- Claim C6: every match returned by `match_names_to_people` has final
confidence in `[threshold, 1]`, the result has at most one entry per
person id, is sorted by confidence descending, and has length at most 5. -/
theorem C6_scorer_output_shape (names : List String) (people : List Person)
    (years : Finset Int) (thr : ℚ) :
    (∀ m ∈ matchNamesToPeople names people years thr,
      thr ≤ m.score ∧ m.score ≤ 1) ∧
    ((matchNamesToPeople names people years thr).map MatchRow.pid).Nodup ∧
    (matchNamesToPeople names people years thr).Pairwise
      (fun a b => b.score ≤ a.score) ∧
    (matchNamesToPeople names people years thr).length ≤ 5 := by
  have hinv := matchFold_inv names years thr people ([], []) (by simp) (by simp) (by simp)
  refine ⟨fun m hm => mem_match_score_bounds hm, ?_, ?_, ?_⟩
  · unfold matchNamesToPeople
    rw [List.map_take]
    refine List.Nodup.sublist (List.take_sublist _ _) ?_
    exact (((sortDesc_perm _).map MatchRow.pid).nodup_iff).mpr hinv.2
  · exact List.Pairwise.sublist (List.take_sublist _ _) (sortDesc_pairwise _)
  · unfold matchNamesToPeople
    rw [List.length_take]
    exact min_le_left _ _

/-- Witness for C6: the exact-name match scores 1, within `[0.78, 1]`. -/
theorem C6_scorer_witness :
    (78 / 100 : ℚ) ≤ (⟨1, 1, "Thomas Lack", "auto"⟩ : MatchRow).score ∧
    (⟨1, 1, "Thomas Lack", "auto"⟩ : MatchRow).score ≤ 1 :=
  (C6_scorer_output_shape ["Thomas Lack"] [⟨1, some "Thomas", some "Lack", none, none⟩]
    ∅ (78 / 100)).1 ⟨1, 1, "Thomas Lack", "auto"⟩ (by with_unfolding_all decide)

/-! ## Claim C10 -/

theorem rhe_ge_floor (q : ℚ) : ⌊q⌋ ≤ rhe q := by
  simp only [rhe]
  split
  · exact le_refl _
  · split
    · omega
    · split
      · exact le_refl _
      · omega

theorem round3_mono_83 {v : ℚ} (h : 83 / 100 ≤ v) : 83 / 100 ≤ round3 v := by
  have h1 : (830 : ℤ) ≤ ⌊v * 1000⌋ := by
    rw [Int.le_floor]
    push_cast
    linarith
  have h2 : (830 : ℤ) ≤ rhe (v * 1000) := le_trans h1 (rhe_ge_floor _)
  have h3 : (830 : ℚ) ≤ (rhe (v * 1000) : ℚ) := by exact_mod_cast h2
  unfold round3
  linarith

/-- Claim C10 (implicit): every match the vision pass stores has
confidence `round(min(s + 0.05, 1.0), 3)` where `s` is the scorer's
output at the OCR threshold 0.78, so any newly inserted vision match has
stored confidence at least 0.83 — a +0.05 uplift the spec does not state. -/
theorem C10_vision_confidence_uplift (names : List String) (people : List Person)
    (years : Finset Int) (m : MatchRow)
    (hm : m ∈ matchNamesToPeople names people years nameMatchThreshold) :
    visionStoredConf m.score = round3 (min (m.score + 5 / 100) 1) ∧
    83 / 100 ≤ visionStoredConf m.score := by
  refine ⟨rfl, ?_⟩
  have hs := (mem_match_score_bounds hm).1
  have h78 : (78 : ℚ) / 100 ≤ m.score := by
    simpa [nameMatchThreshold] using hs
  unfold visionStoredConf
  apply round3_mono_83
  rw [le_min_iff]
  exact ⟨by linarith, by norm_num⟩

/-- Witness for C10: the exact-name vision match stores confidence 1. -/
theorem C10_vision_witness :
    visionStoredConf (⟨1, 1, "Thomas Lack", "auto"⟩ : MatchRow).score =
      round3 (min ((⟨1, 1, "Thomas Lack", "auto"⟩ : MatchRow).score + 5 / 100) 1) ∧
    83 / 100 ≤ visionStoredConf (⟨1, 1, "Thomas Lack", "auto"⟩ : MatchRow).score :=
  C10_vision_confidence_uplift ["Thomas Lack"] [⟨1, some "Thomas", some "Lack", none, none⟩]
    ∅ ⟨1, 1, "Thomas Lack", "auto"⟩ (by with_unfolding_all decide)

/-! ## Claim C8 -/

set_option maxRecDepth 4000

/-- Claim C8 counterexample: parsing the scenario filename yields the
single candidate "Obituary for Thomas J. Lack" — the "Obituary for NAME"
template applies only to Newspapers.com-format filenames — and matching
it against a person with given name Thomas and surname Lack at the
filename threshold 0.82 produces no match at all (the best score is
11/19 ≈ 0.579 < 0.82). -/
theorem C8_counterexample :
    matchNamesToPeople
      (parseAncestryFilename "0001_Obituary for Thomas J. Lack_a1b2c3d4.jpg").names
      [⟨1, some "Thomas", some "Lack", none, none⟩]
      (parseAncestryFilename "0001_Obituary for Thomas J. Lack_a1b2c3d4.jpg").years
      filenameMatchThreshold = [] := by
  with_unfolding_all decide

/-- Claim C8 (amended): the filename
`"0001_Obituary for Thomas J. Lack_a1b2c3d4.jpg"` parses to the single
candidate `"Obituary for Thomas J. Lack"`, which scores only 11/19
against "Thomas Lack" and is not matched at the 0.82 filename threshold;
the "Obituary for NAME" extraction fires only for Newspapers.com-format
filenames, where the candidate `"Thomas J. Lack"` is extracted and the
person Thomas Lack is matched at confidence 1.0 ≥ 0.82. -/
theorem C8_filename_scenario_amended :
    (parseAncestryFilename "0001_Obituary for Thomas J. Lack_a1b2c3d4.jpg").names =
      ["Obituary for Thomas J. Lack"] ∧
    nameSimilarity "Thomas Lack" "Obituary for Thomas J. Lack" = 11 / 19 ∧
    (parseAncestryFilename
      "0002_Newspapers.com - The Daily Star - 4 May 1951 - 7 Obituary for Thomas J. Lack_a1b2c3d4.jpg").names =
      ["Thomas J. Lack"] ∧
    matchNamesToPeople ["Thomas J. Lack"] [⟨1, some "Thomas", some "Lack", none, none⟩]
      (parseAncestryFilename
        "0002_Newspapers.com - The Daily Star - 4 May 1951 - 7 Obituary for Thomas J. Lack_a1b2c3d4.jpg").years
      filenameMatchThreshold = [⟨1, 1, "Thomas J. Lack", "auto"⟩] := by
  refine ⟨?_, ?_, ?_, ?_⟩ <;> with_unfolding_all decide

/-! ## Claims C3 and C9: characterising the duplicate-candidate pairs -/

/-- The pair gate as one Boolean: names differ (after lowercasing) and
the birth-year closeness gate passes. -/
def dupGateB (p q : DPerson) : Bool :=
  !sameNameB p q && dateClose p.birth_date q.birth_date

theorem sameNameB_eq_true (p q : DPerson) :
    sameNameB p q = true ↔
      pyLower p.surname = pyLower q.surname ∧ pyLower p.given = pyLower q.given := by
  simp [sameNameB]

theorem sameNameB_comm (p q : DPerson) : sameNameB p q = sameNameB q p := by
  rw [Bool.eq_iff_iff, sameNameB_eq_true, sameNameB_eq_true]
  constructor <;> rintro ⟨h1, h2⟩ <;> exact ⟨h1.symm, h2.symm⟩

theorem dateClose_eq_true (b1 b2 : Option String) :
    dateClose b1 b2 = true ↔
      (pyTruthyYear (extractYearStr b1) = false ∨
        pyTruthyYear (extractYearStr b2) = false) ∨
      (pyTruthyYear (extractYearStr b1) = true ∧
        pyTruthyYear (extractYearStr b2) = true ∧
        ((extractYearStr b1).getD 0 - (extractYearStr b2).getD 0).natAbs ≤ 5) := by
  unfold dateClose
  cases h1 : pyTruthyYear (extractYearStr b1) <;>
    cases h2 : pyTruthyYear (extractYearStr b2) <;> simp [h1, h2]

theorem dateClose_comm (b1 b2 : Option String) :
    dateClose b1 b2 = dateClose b2 b1 := by
  rw [Bool.eq_iff_iff, dateClose_eq_true, dateClose_eq_true]
  constructor <;> rintro (h | ⟨h1, h2, h3⟩)
  · exact Or.inl h.symm
  · refine Or.inr ⟨h2, h1, ?_⟩
    rw [← Int.natAbs_neg, neg_sub]
    exact h3
  · exact Or.inl h.symm
  · refine Or.inr ⟨h2, h1, ?_⟩
    rw [← Int.natAbs_neg, neg_sub]
    exact h3

theorem skey_comm (p q : DPerson) : skey p q = skey q p := by
  unfold skey
  rw [Nat.min_comm, Nat.max_comm]

theorem dupGateB_eq_true (p q : DPerson) :
    dupGateB p q = true ↔
      sameNameB p q = false ∧ dateClose p.birth_date q.birth_date = true := by
  simp [dupGateB]

theorem dupGateB_comm (p q : DPerson) : dupGateB p q = dupGateB q p := by
  unfold dupGateB
  rw [sameNameB_comm, dateClose_comm]

theorem mem_ordPairs {l : List DPerson} {pq : DPerson × DPerson}
    (h : pq ∈ ordPairs l) : pq.1 ∈ l ∧ pq.2 ∈ l := by
  induction l with
  | nil => exact absurd h (by simp [ordPairs])
  | cons x xs ih =>
    rw [ordPairs, List.mem_append] at h
    rcases h with h | h
    · obtain ⟨y, hy, hpq⟩ := List.mem_map.mp h
      rw [← hpq]
      exact ⟨List.mem_cons_self x xs, List.mem_cons_of_mem x hy⟩
    · obtain ⟨h1, h2⟩ := ih h
      exact ⟨List.mem_cons_of_mem x h1, List.mem_cons_of_mem x h2⟩

theorem ordPairs_of_mem_ne {l : List DPerson} {p q : DPerson}
    (hp : p ∈ l) (hq : q ∈ l) (hne : p ≠ q) :
    (p, q) ∈ ordPairs l ∨ (q, p) ∈ ordPairs l := by
  induction l with
  | nil => exact absurd hp (List.not_mem_nil p)
  | cons x xs ih =>
    rcases List.mem_cons.mp hp with rfl | hp2
    · rcases List.mem_cons.mp hq with rfl | hq2
      · exact absurd rfl hne
      · exact Or.inl (by
          rw [ordPairs, List.mem_append]
          exact Or.inl (List.mem_map.mpr ⟨q, hq2, rfl⟩))
    · rcases List.mem_cons.mp hq with rfl | hq2
      · exact Or.inr (by
          rw [ordPairs, List.mem_append]
          exact Or.inl (List.mem_map.mpr ⟨p, hp2, rfl⟩))
      · rcases ih hp2 hq2 with h | h
        · exact Or.inl (by rw [ordPairs, List.mem_append]; exact Or.inr h)
        · exact Or.inr (by rw [ordPairs, List.mem_append]; exact Or.inr h)

theorem ordPairs_short {l : List DPerson} (h : l.length < 2) : ordPairs l = [] := by
  match l with
  | [] => rfl
  | [x] => rfl
  | x :: y :: rest =>
    simp at h
    omega

/-- Invariant of the candidate accumulation: `seen_pairs` holds exactly
the keys of the emitted candidates. -/
def InvD (st : DupSt) : Prop := ∀ k, k ∈ st.1.map DupCand.key ↔ k ∈ st.2

theorem pairStep_inv {st : DupSt} (p q : DPerson) (h : InvD st) :
    InvD (pairStep st p q) := by
  simp only [pairStep]
  split_ifs with h1 h2 h3
  · exact h
  · exact h
  · exact h
  · intro k
    rw [List.map_append, List.mem_append, List.map_singleton, List.mem_singleton,
      List.mem_cons, h k]
    exact or_comm

theorem pairStep_keys {st : DupSt} (p q : DPerson) (h : InvD st) (k : Nat × Nat) :
    k ∈ (pairStep st p q).1.map DupCand.key ↔
      k ∈ st.1.map DupCand.key ∨ (dupGateB p q = true ∧ k = skey p q) := by
  simp only [pairStep]
  split_ifs with h1 h2 h3
  · have hg : dupGateB p q = false := by simp [dupGateB, h1]
    simp [hg]
  · have hdc : dateClose p.birth_date q.birth_date = false := by simpa using h2
    have hg : dupGateB p q = false := by simp [dupGateB, hdc]
    simp [hg]
  · have hdc : dateClose p.birth_date q.birth_date = true := by simpa using h2
    have hsn : sameNameB p q = false := by simpa using h1
    have hg : dupGateB p q = true := by simp [dupGateB, hsn, hdc]
    constructor
    · exact fun hk => Or.inl hk
    · rintro (hk | ⟨-, rfl⟩)
      · exact hk
      · exact (h _).mpr h3
  · have hdc : dateClose p.birth_date q.birth_date = true := by simpa using h2
    have hsn : sameNameB p q = false := by simpa using h1
    have hg : dupGateB p q = true := by simp [dupGateB, hsn, hdc]
    rw [List.map_append, List.mem_append, List.map_singleton, List.mem_singleton]
    simp [hg]

theorem innerLoop_spec (p : DPerson) (rest : List DPerson) (st : DupSt)
    (h : InvD st) :
    InvD (innerLoop p rest st) ∧
    ∀ k, (k ∈ (innerLoop p rest st).1.map DupCand.key ↔
      k ∈ st.1.map DupCand.key ∨
        ∃ q ∈ rest, dupGateB p q = true ∧ k = skey p q) := by
  induction rest generalizing st with
  | nil => exact ⟨h, fun k => by simp [innerLoop]⟩
  | cons q rest ih =>
    have h1 := pairStep_inv p q h
    obtain ⟨ha, hb⟩ := ih (pairStep st p q) h1
    have hstep : innerLoop p (q :: rest) st = innerLoop p rest (pairStep st p q) := rfl
    rw [hstep]
    refine ⟨ha, fun k => ?_⟩
    rw [hb k, pairStep_keys p q h k, List.exists_mem_cons_iff]
    tauto

theorem memberLoop_spec (members : List DPerson) (st : DupSt) (h : InvD st) :
    InvD (memberLoop members st) ∧
    ∀ k, (k ∈ (memberLoop members st).1.map DupCand.key ↔
      k ∈ st.1.map DupCand.key ∨
        ∃ pq ∈ ordPairs members, dupGateB pq.1 pq.2 = true ∧ k = skey pq.1 pq.2) := by
  induction members generalizing st with
  | nil => exact ⟨h, fun k => by simp [memberLoop, ordPairs]⟩
  | cons p rest ih =>
    obtain ⟨h1, h2⟩ := innerLoop_spec p rest st h
    obtain ⟨h3, h4⟩ := ih (innerLoop p rest st) h1
    have hstep : memberLoop (p :: rest) st = memberLoop rest (innerLoop p rest st) := rfl
    rw [hstep]
    refine ⟨h3, fun k => ?_⟩
    rw [h4 k, h2 k]
    simp only [ordPairs, List.mem_append, List.mem_map]
    constructor
    · rintro ((hk | ⟨q, hq, hg, hk⟩) | ⟨pq, hpq, hg, hk⟩)
      · exact Or.inl hk
      · exact Or.inr ⟨(p, q), Or.inl ⟨q, hq, rfl⟩, hg, hk⟩
      · exact Or.inr ⟨pq, Or.inr hpq, hg, hk⟩
    · rintro (hk | ⟨pq, (⟨q, hq, hpq⟩ | hpq), hg, hk⟩)
      · exact Or.inl (Or.inl hk)
      · cases hpq
        exact Or.inl (Or.inr ⟨q, hq, hg, hk⟩)
      · exact Or.inr ⟨pq, hpq, hg, hk⟩

theorem groupsFold_spec (gs : List (String × List DPerson)) (st : DupSt)
    (h : InvD st) :
    InvD (gs.foldl (fun st g => if g.2.length < 2 then st else memberLoop g.2 st) st) ∧
    ∀ k, (k ∈ (gs.foldl
        (fun st g => if g.2.length < 2 then st else memberLoop g.2 st) st).1.map
          DupCand.key ↔
      k ∈ st.1.map DupCand.key ∨
        ∃ g ∈ gs, ∃ pq ∈ ordPairs g.2,
          dupGateB pq.1 pq.2 = true ∧ k = skey pq.1 pq.2) := by
  induction gs generalizing st with
  | nil => exact ⟨h, fun k => by simp⟩
  | cons g gs ih =>
    rw [List.foldl_cons]
    by_cases hlen : g.2.length < 2
    · rw [if_pos hlen]
      obtain ⟨h1, h2⟩ := ih st h
      refine ⟨h1, fun k => ?_⟩
      rw [h2 k, List.exists_mem_cons_iff, ordPairs_short hlen]
      simp
    · rw [if_neg hlen]
      obtain ⟨h1, h2⟩ := memberLoop_spec g.2 st h
      obtain ⟨h3, h4⟩ := ih (memberLoop g.2 st) h1
      refine ⟨h3, fun k => ?_⟩
      rw [h4 k, h2 k, List.exists_mem_cons_iff]
      exact or_assoc

/-! Well-formedness of the blocking groups. -/

theorem addToGroups_wf {C : DPerson → Prop} {gs : List (String × List DPerson)}
    (h : ∀ g ∈ gs, ∀ p ∈ g.2, C p ∧ blockKey p = g.1)
    {k : String} {p0 : DPerson} (hC : C p0) (hk : blockKey p0 = k) :
    ∀ g ∈ addToGroups gs k p0, ∀ p ∈ g.2, C p ∧ blockKey p = g.1 := by
  induction gs with
  | nil =>
    intro g hg p hp
    rw [addToGroups] at hg
    rw [List.mem_singleton.mp hg] at hp ⊢
    rw [List.mem_singleton.mp hp]
    exact ⟨hC, hk⟩
  | cons g0 rest ih =>
    obtain ⟨k0, ms0⟩ := g0
    intro g hg p hp
    rw [addToGroups] at hg
    by_cases he : k0 = k
    · rw [if_pos he] at hg
      rcases List.mem_cons.mp hg with rfl | hg2
      · rcases List.mem_append.mp hp with hp2 | hp2
        · exact h (k0, ms0) (List.mem_cons_self _ _) p hp2
        · rw [List.mem_singleton.mp hp2]
          exact ⟨hC, by rw [hk, he]⟩
      · exact h g (List.mem_cons_of_mem _ hg2) p hp
    · rw [if_neg he] at hg
      rcases List.mem_cons.mp hg with rfl | hg2
      · exact h (k0, ms0) (List.mem_cons_self _ _) p hp
      · exact ih (fun g' hg' => h g' (List.mem_cons_of_mem _ hg')) g hg2 p hp

theorem groupsFoldl_wf (l : List DPerson) {C : DPerson → Prop}
    (acc : List (String × List DPerson))
    (hacc : ∀ g ∈ acc, ∀ p ∈ g.2, C p ∧ blockKey p = g.1)
    (hl : ∀ p ∈ l, C p) :
    ∀ g ∈ l.foldl (fun gs p => addToGroups gs (blockKey p) p) acc,
      ∀ p ∈ g.2, C p ∧ blockKey p = g.1 := by
  induction l generalizing acc with
  | nil => exact hacc
  | cons p rest ih =>
    rw [List.foldl_cons]
    exact ih _ (addToGroups_wf hacc (hl p (List.mem_cons_self _ _)) rfl)
      (fun q hq => hl q (List.mem_cons_of_mem _ hq))

theorem groupsOf_wf (t : List DPerson) :
    ∀ g ∈ groupsOf t, ∀ p ∈ g.2, p ∈ t ∧ blockKey p = g.1 :=
  groupsFoldl_wf t [] (by simp) (fun _ hp => hp)

theorem lookupG_addToGroups (gs : List (String × List DPerson)) (k0 : String)
    (p : DPerson) (k : String) :
    lookupG (addToGroups gs k0 p) k =
      if k = k0 then lookupG gs k ++ [p] else lookupG gs k := by
  induction gs with
  | nil =>
    rw [addToGroups]
    by_cases hk : k = k0
    · rw [if_pos hk, hk]
      simp [lookupG]
    · rw [if_neg hk]
      have : (k0 == k) = false := by simp [(Ne.symm hk)]
      simp [lookupG, this]
  | cons g0 rest ih =>
    obtain ⟨k', ms⟩ := g0
    rw [addToGroups]
    by_cases he : k' = k0
    · rw [if_pos he]
      by_cases hk : k' == k
      · have hkk : k' = k := by simpa using hk
        rw [show lookupG ((k', ms ++ [p]) :: rest) k = ms ++ [p] by simp [lookupG, hk]]
        rw [if_pos (by rw [← hkk, he])]
        rw [show lookupG ((k', ms) :: rest) k = ms by simp [lookupG, hk]]
      · have hkk : ¬(k' = k) := by simpa using hk
        rw [show lookupG ((k', ms ++ [p]) :: rest) k = lookupG rest k by
          simp [lookupG, hk]]
        rw [show lookupG ((k', ms) :: rest) k = lookupG rest k by simp [lookupG, hk]]
        rw [if_neg (by rw [← he]; exact fun hc => hkk hc.symm)]
    · rw [if_neg he]
      by_cases hk : k' == k
      · have hkk : k' = k := by simpa using hk
        rw [show lookupG ((k', ms) :: addToGroups rest k0 p) k = ms by
          simp [lookupG, hk]]
        rw [show lookupG ((k', ms) :: rest) k = ms by simp [lookupG, hk]]
        rw [if_neg (fun hc => he (hkk.trans hc))]
      · rw [show lookupG ((k', ms) :: addToGroups rest k0 p) k =
          lookupG (addToGroups rest k0 p) k by simp [lookupG, hk]]
        rw [show lookupG ((k', ms) :: rest) k = lookupG rest k by simp [lookupG, hk]]
        exact ih

theorem lookupG_groupsOf (t : List DPerson) (k : String) :
    lookupG (groupsOf t) k = t.filter (fun p => blockKey p == k) := by
  have h : ∀ acc, lookupG
      (t.foldl (fun gs p => addToGroups gs (blockKey p) p) acc) k =
      lookupG acc k ++ t.filter (fun p => blockKey p == k) := by
    induction t with
    | nil => intro acc; simp
    | cons p rest ih =>
      intro acc
      rw [List.foldl_cons, ih (addToGroups acc (blockKey p) p), lookupG_addToGroups]
      by_cases hk : k = blockKey p
      · rw [if_pos hk, List.filter_cons_of_pos (by simp [hk])]
        simp
      · rw [if_neg hk, List.filter_cons_of_neg (by simp [Ne.symm hk])]
  have h0 := h []
  rw [groupsOf]
  rw [h0]
  rfl

theorem lookupG_entry_mem (gs : List (String × List DPerson)) (k : String)
    (hne : lookupG gs k ≠ []) : (k, lookupG gs k) ∈ gs := by
  induction gs with
  | nil => exact absurd rfl hne
  | cons g rest ih =>
    obtain ⟨k', ms⟩ := g
    by_cases hk : k' == k
    · have hkk : k' = k := by simpa using hk
      have hl : lookupG ((k', ms) :: rest) k = ms := by simp [lookupG, hk]
      rw [hl, ← hkk]
      exact List.mem_cons_self _ _
    · have hl : lookupG ((k', ms) :: rest) k = lookupG rest k := by simp [lookupG, hk]
      rw [hl] at hne ⊢
      exact List.mem_cons_of_mem _ (ih hne)

/-- An unordered id pair is emitted (before sorting/capping) iff two rows
of the table share the blocking key, differ on lowercased names, pass the
birth-year gate, and sort to that pair. -/
theorem mem_rawKeys_iff (t : List DPerson) (k : Nat × Nat) :
    k ∈ rawKeys t ↔ ∃ p q, p ∈ t ∧ q ∈ t ∧ blockKey p = blockKey q ∧
      sameNameB p q = false ∧ dateClose p.birth_date q.birth_date = true ∧
      k = skey p q := by
  have h0 : InvD (([], []) : DupSt) := fun k => by simp
  obtain ⟨-, hiff⟩ := groupsFold_spec (groupsOf t) ([], []) h0
  have hraw : rawKeys t = ((groupsOf t).foldl
      (fun st g => if g.2.length < 2 then st else memberLoop g.2 st)
      ([], [])).1.map DupCand.key := rfl
  rw [hraw, hiff k]
  simp only [List.map_nil, List.not_mem_nil, false_or]
  constructor
  · rintro ⟨g, hg, ⟨p, q⟩, hpq, hg2, hk⟩
    obtain ⟨hp2, hq2⟩ := mem_ordPairs hpq
    have hwp := groupsOf_wf t g hg p hp2
    have hwq := groupsOf_wf t g hg q hq2
    obtain ⟨hsn, hdc⟩ := (dupGateB_eq_true p q).mp hg2
    exact ⟨p, q, hwp.1, hwq.1, hwp.2.trans hwq.2.symm, hsn, hdc, hk⟩
  · rintro ⟨p, q, hp, hq, hbk, hsn, hdc, hk⟩
    have hfil := lookupG_groupsOf t (blockKey p)
    have hpin : p ∈ lookupG (groupsOf t) (blockKey p) := by
      rw [hfil]
      exact List.mem_filter.mpr ⟨hp, by simp⟩
    have hqin : q ∈ lookupG (groupsOf t) (blockKey p) := by
      rw [hfil]
      exact List.mem_filter.mpr ⟨hq, by simp [hbk]⟩
    have hne : p ≠ q := by
      rintro rfl
      have hrefl : sameNameB p p = true := by
        rw [sameNameB_eq_true]
        exact ⟨rfl, rfl⟩
      rw [hsn] at hrefl
      exact Bool.false_ne_true hrefl
    have hentry : (blockKey p, lookupG (groupsOf t) (blockKey p)) ∈ groupsOf t :=
      lookupG_entry_mem _ _ (List.ne_nil_of_mem hpin)
    have hgate : dupGateB p q = true := (dupGateB_eq_true p q).mpr ⟨hsn, hdc⟩
    rcases ordPairs_of_mem_ne hpin hqin hne with hop | hop
    · exact ⟨_, hentry, (p, q), hop, hgate, hk⟩
    · refine ⟨_, hentry, (q, p), hop, ?_, ?_⟩
      · rw [← dupGateB_comm p q]
        exact hgate
      · rw [hk]
        exact skey_comm p q

/-! ## Claim C3 -/

/-- Claim C3 counterexample: a pair with one birth year known (1850) and
the other undetermined passes the gate and is emitted as a candidate,
although the claim's condition — both undetermined, or both known within
5 years — is false for it. -/
theorem C3_counterexample :
    rawKeys [⟨1, "Ann", "Lack", some "1850", none⟩, ⟨2, "Ann", "Lak", none, none⟩] =
      [(1, 2)] ∧
    ¬((pyTruthyYear (extractYearStr (some "1850")) = false ∧
        pyTruthyYear (extractYearStr (none : Option String)) = false) ∨
      (pyTruthyYear (extractYearStr (some "1850")) = true ∧
        pyTruthyYear (extractYearStr (none : Option String)) = true ∧
        ((extractYearStr (some "1850")).getD 0 -
          (extractYearStr (none : Option String)).getD 0).natAbs ≤ 5)) := by
  constructor
  · decide
  · decide

/-- Claim C3 (amended): the birth-year gate accepts a pair iff at least
one birth year is undetermined (unparsable, absent, or the falsy 0), or
both are determined and differ by at most 5; in particular every emitted
candidate pair passed the gate, so a pair with both years known and more
than 5 apart is never emitted. -/
theorem C3_birth_year_gate (b1 b2 : Option String) (t : List DPerson) (k : Nat × Nat) :
    (dateClose b1 b2 = true ↔
      (pyTruthyYear (extractYearStr b1) = false ∨
        pyTruthyYear (extractYearStr b2) = false) ∨
      (pyTruthyYear (extractYearStr b1) = true ∧
        pyTruthyYear (extractYearStr b2) = true ∧
        ((extractYearStr b1).getD 0 - (extractYearStr b2).getD 0).natAbs ≤ 5)) ∧
    (k ∈ rawKeys t → ∃ p q, p ∈ t ∧ q ∈ t ∧ blockKey p = blockKey q ∧
      sameNameB p q = false ∧ dateClose p.birth_date q.birth_date = true ∧
      k = skey p q) :=
  ⟨dateClose_eq_true b1 b2, fun hk => (mem_rawKeys_iff t k).mp hk⟩

/-- Witness for C3: the emitted pair of the two-person table satisfies
the gate. -/
theorem C3_gate_witness :
    ∃ p q, p ∈ [(⟨1, "Ann", "Lack", some "1850", none⟩ : DPerson),
        ⟨2, "Ann", "Lak", none, none⟩] ∧
      q ∈ [(⟨1, "Ann", "Lack", some "1850", none⟩ : DPerson),
        ⟨2, "Ann", "Lak", none, none⟩] ∧
      blockKey p = blockKey q ∧ sameNameB p q = false ∧
      dateClose p.birth_date q.birth_date = true ∧ (1, 2) = skey p q :=
  (C3_birth_year_gate none none
    [⟨1, "Ann", "Lack", some "1850", none⟩, ⟨2, "Ann", "Lak", none, none⟩] (1, 2)).2
    (by decide)

/-! ## Claim C9 -/

/-- The 15-person block used by the C9 counterexample: identical given
names, 15 distinct surnames that all share the Soundex code L200, no
birth dates or places — so all 105 intra-block pairs pass the gates and
score exactly 4. -/
def permTab : List DPerson :=
  [⟨1, "Ann", "Lack", none, none⟩, ⟨2, "Ann", "Lak", none, none⟩,
   ⟨3, "Ann", "Lac", none, none⟩, ⟨4, "Ann", "Lacke", none, none⟩,
   ⟨5, "Ann", "Laak", none, none⟩, ⟨6, "Ann", "Lakk", none, none⟩,
   ⟨7, "Ann", "Laack", none, none⟩, ⟨8, "Ann", "Lacc", none, none⟩,
   ⟨9, "Ann", "Lakc", none, none⟩, ⟨10, "Ann", "Lck", none, none⟩,
   ⟨11, "Ann", "Lcck", none, none⟩, ⟨12, "Ann", "Laik", none, none⟩,
   ⟨13, "Ann", "Loak", none, none⟩, ⟨14, "Ann", "Luck", none, none⟩,
   ⟨15, "Ann", "Lick", none, none⟩]

/-- Claim C9 counterexample: with 105 equal-score candidates the cap to
the top 100 keeps whichever were emitted first, so reversing the row
order changes the output pair set — `(14, 15)` is dropped for one order
and kept for the other, though the two tables are permutations. -/
theorem C9_counterexample :
    (14, 15) ∉ (dupCands permTab).map DupCand.key ∧
    (14, 15) ∈ (dupCands permTab.reverse).map DupCand.key ∧
    List.Perm permTab permTab.reverse := by
  refine ⟨by decide, by decide, (List.reverse_perm permTab).symm⟩

/-- Claim C9 (amended): before the sort and the cap to the top 100, the
set of unordered candidate id pairs is invariant under any permutation of
the person-table rows (the cap can break this only through score ties at
the boundary). -/
theorem C9_precap_perm_invariant (t1 t2 : List DPerson)
    (h : List.Perm t1 t2) (k : Nat × Nat) :
    k ∈ rawKeys t1 ↔ k ∈ rawKeys t2 := by
  rw [mem_rawKeys_iff, mem_rawKeys_iff]
  constructor <;> rintro ⟨p, q, hp, hq, h3, h4, h5, h6⟩
  · exact ⟨p, q, h.mem_iff.mp hp, h.mem_iff.mp hq, h3, h4, h5, h6⟩
  · exact ⟨p, q, h.mem_iff.mpr hp, h.mem_iff.mpr hq, h3, h4, h5, h6⟩

/-- Witness for C9: the two orders of a two-person table emit the same
pair. -/
theorem C9_perm_witness :
    (1, 2) ∈ rawKeys [(⟨1, "Ann", "Lack", none, none⟩ : DPerson),
        ⟨2, "Ann", "Lak", none, none⟩] ↔
      (1, 2) ∈ rawKeys [(⟨2, "Ann", "Lak", none, none⟩ : DPerson),
        ⟨1, "Ann", "Lack", none, none⟩] :=
  C9_precap_perm_invariant _ _
    (List.Perm.swap ⟨2, "Ann", "Lak", none, none⟩ ⟨1, "Ann", "Lack", none, none⟩ [])
    (1, 2)

end Lineage
